import Mathlib

/-!
AVL tree (avl_tree.hpp): embedding and verification.

The C++ sources implement an AVL tree over a generic key type `T` with the
operations `insert`, `remove` and `has`.  This file embeds the source functions
as Lean functions and proves the properties of the specification about them.

Modelling decisions:

* A pointer `AVLTreeNode<T> *` is a value of the inductive type `AVLTreeNode`;
  `nullptr` is `AVLTreeNode.nil`.  The node fields are kept in the order of the
  source (`val`, `height`, `left`, `right`).  Ownership is exclusive in the
  source (each node is reachable through exactly one pointer), so in-place
  updates of a node are modelled by rebuilding the node.
* The key type is any type with a linear order; `val > node->val` is
  `val > v`, and the final `else` of a three-way comparison is equality.
* Dereferencing a null pointer is undefined behaviour in C++.  Every function
  that dereferences a child without a check returns `Option`; `none` stands
  for such a dereference.
* `size_t` heights and the size counter are natural numbers.  A wrap-around
  would need a height or a node count of `2^63` or more, far beyond the
  number of nodes that fit in memory.  `ssize_t balance = left_height -
  right_height` is the integer difference of the two heights.
* The reference parameter `size_t &size` is passed in and returned.
-/

namespace AVL

/-- Structure for a node in an AVL tree (`struct AVLTreeNode`), together with
the null pointer. -/
inductive AVLTreeNode (α : Type) where
  | nil : AVLTreeNode α
  | node (val : α) (height : Nat) (left right : AVLTreeNode α) : AVLTreeNode α
  deriving DecidableEq

/-- Structure representing an AVL tree (`struct AVLTree`): root and size. -/
structure AVLTree (α : Type) where
  root : AVLTreeNode α
  size : Nat
  deriving DecidableEq

/-- The two mutating calls of the public interface. -/
inductive Op (α : Type) where
  | insert (val : α) : Op α
  | remove (val : α) : Op α
  deriving DecidableEq

section Code

variable {α : Type}

/-- The constructor of a leaf node, `AVLTreeNode(const T &val)`. -/
def AVLTreeNode.leaf (val : α) : AVLTreeNode α :=
  .node val 1 .nil .nil

/-- Source `AVLTreeNode::dfs`: in-order depth first traversal calling `cb`
on each node with its depth.  The callback mutates captured state in the
source; here it maps the state before the call to the state after it. -/
def dfs {σ : Type} (cb : σ → AVLTreeNode α → Nat → σ) :
    AVLTreeNode α → Nat → σ → σ
  | .nil, _, s => s
  | .node v h l r, depth, s =>
    let s1 := dfs cb l (depth + 1) s
    let s2 := cb s1 (.node v h l r) depth
    dfs cb r (depth + 1) s2

/-- Source `avl_height`: 0 for the null pointer, else the stored height. -/
def avl_height : AVLTreeNode α → Nat
  | .nil => 0
  | .node _ h _ _ => h

/-- Source `avl_rebalance_left_left`. -/
def avl_rebalance_left_left : AVLTreeNode α → Option (AVLTreeNode α)
  | .node zv _ (.node yv _ (.node xv _ T1 T2) T3) T4 =>
    let xh := max (avl_height T1) (avl_height T2) + 1
    let zh := max (avl_height T3) (avl_height T4) + 1
    let yh := max xh zh + 1
    some (.node yv yh (.node xv xh T1 T2) (.node zv zh T3 T4))
  | _ => none

/-- Source `avl_rebalance_left_right`. -/
def avl_rebalance_left_right : AVLTreeNode α → Option (AVLTreeNode α)
  | .node zv _ (.node yv _ T1 (.node xv _ T2 T3)) T4 =>
    let yh := max (avl_height T1) (avl_height T2) + 1
    let zh := max (avl_height T3) (avl_height T4) + 1
    let xh := max yh zh + 1
    some (.node xv xh (.node yv yh T1 T2) (.node zv zh T3 T4))
  | _ => none

/-- Source `avl_rebalance_right_right`. -/
def avl_rebalance_right_right : AVLTreeNode α → Option (AVLTreeNode α)
  | .node zv _ T1 (.node yv _ T2 (.node xv _ T3 T4)) =>
    let zh := max (avl_height T1) (avl_height T2) + 1
    let xh := max (avl_height T3) (avl_height T4) + 1
    let yh := max zh xh + 1
    some (.node yv yh (.node zv zh T1 T2) (.node xv xh T3 T4))
  | _ => none

/-- Source `avl_rebalance_right_left`. -/
def avl_rebalance_right_left : AVLTreeNode α → Option (AVLTreeNode α)
  | .node zv _ T1 (.node yv _ (.node xv _ T2 T3) T4) =>
    let zh := max (avl_height T1) (avl_height T2) + 1
    let yh := max (avl_height T3) (avl_height T4) + 1
    let xh := max zh yh + 1
    some (.node xv xh (.node zv zh T1 T2) (.node yv yh T3 T4))
  | _ => none

/-- Source `avl_balance`: 0 for the null pointer, else the difference of the
heights of the left and the right child. -/
def avl_balance : AVLTreeNode α → Int
  | .nil => 0
  | .node _ _ l r => (avl_height l : Int) - (avl_height r : Int)

variable [LinearOrder α]

/-- Source `avl_insert`, lines 291-345: the unwind step run on `node` after the
recursive call has replaced one of its children.  It stores the recomputed
height and, when the node is out of balance, picks a rotation by comparing
`val` with the value of the taller child. -/
def avl_insert_rebalance (node : AVLTreeNode α) (val : α) :
    Option (AVLTreeNode α) :=
  match node with
  | .nil => none
  | .node v _ l r =>
    let left_height := avl_height l
    let right_height := avl_height r
    let node1 := AVLTreeNode.node v (1 + max left_height right_height) l r
    let balance : Int := (left_height : Int) - (right_height : Int)
    if balance > 1 then
      match l with
      | .nil => none
      | .node lv _ _ _ =>
        if val < lv then avl_rebalance_left_left node1
        else avl_rebalance_left_right node1
    else if balance < -1 then
      match r with
      | .nil => none
      | .node rv _ _ _ =>
        if val > rv then avl_rebalance_right_right node1
        else avl_rebalance_right_left node1
    else some node1

/-- Source `avl_insert`: inserts `val` into the subtree rooted at `node`,
returns the new root of the subtree and the updated `size`. -/
def avl_insert : AVLTreeNode α → α → Nat → Option (AVLTreeNode α × Nat)
  | .nil, val, size => some (AVLTreeNode.leaf val, size + 1)
  | .node v h l r, val, size =>
    if val < v then
      match avl_insert l val size with
      | none => none
      | some (l1, size1) =>
        (avl_insert_rebalance (.node v h l1 r) val).map fun n => (n, size1)
    else if val > v then
      match avl_insert r val size with
      | none => none
      | some (r1, size1) =>
        (avl_insert_rebalance (.node v h l r1) val).map fun n => (n, size1)
    else some (.node v h l r, size)

/-- Source `avl_remove`, lines 475-536: the unwind step run on `node` after the
structural change below it.  A null `node` is returned as it is; otherwise the
recomputed height is stored and, when the node is out of balance, a rotation
is picked by the balance of the taller child. -/
def avl_remove_rebalance (node : AVLTreeNode α) : Option (AVLTreeNode α) :=
  match node with
  | .nil => some .nil
  | .node v _ l r =>
    let left_height := avl_height l
    let right_height := avl_height r
    let node1 := AVLTreeNode.node v (1 + max left_height right_height) l r
    let balance : Int := (left_height : Int) - (right_height : Int)
    if balance > 1 then
      if avl_balance l ≥ 0 then avl_rebalance_left_left node1
      else avl_rebalance_left_right node1
    else if balance < -1 then
      if avl_balance r ≤ 0 then avl_rebalance_right_right node1
      else avl_rebalance_right_left node1
    else some node1

/-- Source `avl_remove_node`, lines 416-421: the value of the left-most node
of the subtree whose root holds `v` and has left child `l`. -/
def avl_successor_val : α → AVLTreeNode α → α
  | v, .nil => v
  | _, .node lv _ ll _ => avl_successor_val lv ll

/-- The value of the in-order successor of a node with right child `right`
(the `successor->val` of `avl_remove_node`); `none` when `right` is null. -/
def avl_successor : AVLTreeNode α → Option α
  | .nil => none
  | .node rv _ rl _ => some (avl_successor_val rv rl)

/-- Source `avl_remove`: removes `val` from the subtree rooted at `node`,
returns the new root of the subtree and the updated `size`.

`avl_remove` and `avl_remove_node` call each other in the source.  The body
of `avl_remove_node` is written out in the branch that calls it, so that the
recursion is structural; `avl_remove_node` below is the function on its own
and `avl_remove_found` shows that the branch computes exactly it.  The nested
call on the right subtree receives the uninitialised `dummy_size`, whose
final value is dropped; it is passed as 0. -/
def avl_remove : AVLTreeNode α → α → Nat → Option (AVLTreeNode α × Nat)
  | .nil, _, size => some (.nil, size)
  | .node v h l r, val, size =>
    if val < v then
      match avl_remove l val size with
      | none => none
      | some (l1, size1) =>
        (avl_remove_rebalance (.node v h l1 r)).map fun n => (n, size1)
    else if val > v then
      match avl_remove r val size with
      | none => none
      | some (r1, size1) =>
        (avl_remove_rebalance (.node v h l r1)).map fun n => (n, size1)
    else
      let removed : Option (AVLTreeNode α) :=
        match l, r with
        | .nil, .nil => some .nil
        | .nil, _ => some r
        | _, .nil => some l
        | _, _ =>
          match avl_successor r with
          | none => none
          | some s =>
            match avl_remove r s 0 with
            | none => none
            | some (r1, _) => some (.node s h l r1)
      match removed with
      | none => none
      | some node1 => (avl_remove_rebalance node1).map fun n => (n, size - 1)

/-- Source `avl_remove_node`: deletes `node` and reconnects the tree. -/
def avl_remove_node : AVLTreeNode α → Option (AVLTreeNode α)
  | .nil => none
  | .node _ _ .nil .nil => some .nil
  | .node _ _ .nil r => some r
  | .node _ _ l .nil => some l
  | .node _ h l r =>
    match avl_successor r with
    | none => none
    | some s =>
      match avl_remove r s 0 with
      | none => none
      | some (r1, _) => some (.node s h l r1)

/-- Source `avl_has`: searches the subtree for `val`. -/
def avl_has : AVLTreeNode α → α → Bool
  | .nil, _ => false
  | .node v _ l r, val =>
    if val < v then avl_has l val
    else if val > v then avl_has r val
    else true

/-- The constructor `AVLTree()`: the empty tree. -/
def AVLTree.empty : AVLTree α :=
  { root := .nil, size := 0 }

/-- Source `AVLTree::insert`. -/
def AVLTree.insert (t : AVLTree α) (val : α) : Option (AVLTree α) :=
  (avl_insert t.root val t.size).map fun p => { root := p.1, size := p.2 }

/-- Source `AVLTree::remove`. -/
def AVLTree.remove (t : AVLTree α) (val : α) : Option (AVLTree α) :=
  (avl_remove t.root val t.size).map fun p => { root := p.1, size := p.2 }

/-- Source `AVLTree::has`. -/
def AVLTree.has (t : AVLTree α) (val : α) : Bool :=
  avl_has t.root val

/-- One call of the public interface. -/
def AVLTree.apply (t : AVLTree α) : Op α → Option (AVLTree α)
  | .insert val => t.insert val
  | .remove val => t.remove val

/-- The calls `ops` made one after the other on the tree `t`. -/
def AVLTree.applyAll : AVLTree α → List (Op α) → Option (AVLTree α)
  | t, [] => some t
  | t, op :: ops =>
    match t.apply op with
    | none => none
    | some t1 => AVLTree.applyAll t1 ops

/-- The tree reached from the empty tree by the calls `ops`. -/
def AVLTree.run (ops : List (Op α)) : Option (AVLTree α) :=
  AVLTree.applyAll AVLTree.empty ops

/-- Source `assert_tree_valid`, lines 35-67: the callback passed to `dfs`.  The
state is the node counter `size`, or `none` once an assertion has failed
(`assert(false)` ends the program).  `dfs` never calls it on a null node. -/
def assert_node_valid : Option Nat → AVLTreeNode α → Nat → Option Nat
  | none, _, _ => none
  | some _, .nil, _ => none
  | some size, .node v h l r, _ =>
    if (match l with
        | .nil => false
        | .node lv _ _ _ => decide (lv ≥ v)) then none
    else if (match r with
        | .nil => false
        | .node rv _ _ _ => decide (rv ≤ v)) then none
    else if |avl_balance (.node v h l r)| > 1 then none
    else if h ≠ 1 + max (avl_height l) (avl_height r) then none
    else some (size + 1)

/-- Source `assert_tree_valid`: `true` when the call returns, `false` when one of
its assertions fails. -/
def assert_tree_valid (tree : AVLTree α) : Bool :=
  match tree.root with
  | .nil => decide (tree.size = 0)
  | .node v h l r =>
    match dfs assert_node_valid (.node v h l r) 0 (some 0) with
    | none => false
    | some size => decide (size = tree.size)

end Code

section Properties

variable {α : Type}

/-- The values of the subtree in the order of the in-order traversal
(left subtree, node, right subtree). -/
def inorder : AVLTreeNode α → List α
  | .nil => []
  | .node v _ l r => inorder l ++ v :: inorder r

/-- The nodes of the subtree with their depths, in the order in which `dfs`
started at depth `d` visits them. -/
def nodes_at : AVLTreeNode α → Nat → List (AVLTreeNode α × Nat)
  | .nil, _ => []
  | .node v h l r, d => nodes_at l (d + 1) ++ (.node v h l r, d) :: nodes_at r (d + 1)

/-- The nodes of the subtree, each given as the subtree rooted at it. -/
def nodes (t : AVLTreeNode α) : List (AVLTreeNode α) :=
  (nodes_at t 0).map Prod.fst

/-- The ordered enumeration of the tree: `dfs` with a callback that records
the value and the depth of each visited node. -/
def traverse (t : AVLTreeNode α) : List (α × Nat) :=
  dfs (fun acc n d =>
    match n with
    | .nil => acc
    | .node v _ _ _ => acc ++ [(v, d)]) t 0 []

/-- The number of nodes visited by `dfs` from the root: the counter of
`assert_tree_valid` (`size++` in the callback), 0 when the root is null. -/
def visited_count (t : AVLTreeNode α) : Nat :=
  dfs (fun n _ _ => n + 1) t 0 0

/-- Height invariant: every node stores 1 + max(height(left), height(right)). -/
def height_ok : AVLTreeNode α → Prop
  | .nil => True
  | .node _ h l r =>
    h = 1 + max (avl_height l) (avl_height r) ∧ height_ok l ∧ height_ok r

/-- Height invariant at one node: the stored height is
1 + max(height(left), height(right)); the check of `assert_tree_valid`. -/
def node_height_ok : AVLTreeNode α → Prop
  | .nil => True
  | .node _ h l r => h = 1 + max (avl_height l) (avl_height r)

/-- The number of nodes on the longest path from the root down to a leaf. -/
def true_height : AVLTreeNode α → Nat
  | .nil => 0
  | .node _ _ l r => 1 + max (true_height l) (true_height r)

/-- The difference of the true heights of the two children of a node. -/
def true_balance : AVLTreeNode α → Int
  | .nil => 0
  | .node _ _ l r => (true_height l : Int) - (true_height r : Int)

/-- Balance invariant: at every node the heights of the two children differ by
at most one. -/
def balanced : AVLTreeNode α → Prop
  | .nil => True
  | .node _ _ l r =>
    avl_height l ≤ avl_height r + 1 ∧ avl_height r ≤ avl_height l + 1 ∧
      balanced l ∧ balanced r

/-- The height invariant can be checked by running over the tree. -/
instance height_ok_decidable : (t : AVLTreeNode α) → Decidable (height_ok t)
  | .nil => isTrue trivial
  | .node _ h l r =>
    have := height_ok_decidable l
    have := height_ok_decidable r
    inferInstanceAs (Decidable
      (h = 1 + max (avl_height l) (avl_height r) ∧ height_ok l ∧ height_ok r))

/-- The balance invariant can be checked by running over the tree. -/
instance balanced_decidable : (t : AVLTreeNode α) → Decidable (balanced t)
  | .nil => isTrue trivial
  | .node _ _ l r =>
    have := balanced_decidable l
    have := balanced_decidable r
    inferInstanceAs (Decidable
      (avl_height l ≤ avl_height r + 1 ∧ avl_height r ≤ avl_height l + 1 ∧
        balanced l ∧ balanced r))

/-- The four rotation transforms. -/
inductive Rotation where
  | left_left : Rotation
  | left_right : Rotation
  | right_right : Rotation
  | right_left : Rotation
  deriving DecidableEq

/-- The left child of a node (`node->left`); null for the null pointer. -/
def child_left : AVLTreeNode α → AVLTreeNode α
  | .nil => .nil
  | .node _ _ l _ => l

/-- The right child of a node (`node->right`); null for the null pointer. -/
def child_right : AVLTreeNode α → AVLTreeNode α
  | .nil => .nil
  | .node _ _ _ r => r

/-- The pointer is not null. -/
def is_node : AVLTreeNode α → Bool
  | .nil => false
  | .node _ _ _ _ => true

/-- The source function of a rotation. -/
def Rotation.run : Rotation → AVLTreeNode α → Option (AVLTreeNode α)
  | .left_left => avl_rebalance_left_left
  | .left_right => avl_rebalance_left_right
  | .right_right => avl_rebalance_right_right
  | .right_left => avl_rebalance_right_left

/-- The nodes that a rotation dereferences at `z` exist: `z.left` and
`z.left.left` for Left-Left, `z.left` and `z.left.right` for Left-Right,
`z.right` and `z.right.right` for Right-Right, `z.right` and `z.right.left`
for Right-Left. -/
def Rotation.nodes_exist : Rotation → AVLTreeNode α → Bool
  | .left_left, z => is_node (child_left z) && is_node (child_left (child_left z))
  | .left_right, z => is_node (child_left z) && is_node (child_right (child_left z))
  | .right_right, z => is_node (child_right z) && is_node (child_right (child_right z))
  | .right_left, z => is_node (child_right z) && is_node (child_left (child_right z))

/-- The rotation that the unwind step of `avl_remove` selects at `node`
(lines 495-531), `none` when the node is in balance. -/
def avl_remove_select (node : AVLTreeNode α) : Option Rotation :=
  match node with
  | .nil => none
  | .node _ _ l r =>
    let balance : Int := (avl_height l : Int) - (avl_height r : Int)
    if balance > 1 then
      if avl_balance l ≥ 0 then some .left_left else some .left_right
    else if balance < -1 then
      if avl_balance r ≤ 0 then some .right_right else some .right_left
    else none

variable [LinearOrder α]

/-- Order invariant: the in-order traversal is strictly ascending. -/
def ordered (t : AVLTreeNode α) : Prop :=
  (inorder t).Pairwise (· < ·)

/-- Order invariant, node by node: every value in the left subtree of a node is
less than the value of the node, every value in its right subtree is greater. -/
def bst : AVLTreeNode α → Prop
  | .nil => True
  | .node v _ l r =>
    (∀ a ∈ inorder l, a < v) ∧ (∀ b ∈ inorder r, v < b) ∧ bst l ∧ bst r

/-- The order invariant can be checked on the traversal. -/
instance ordered_decidable (t : AVLTreeNode α) : Decidable (ordered t) :=
  inferInstanceAs (Decidable ((inorder t).Pairwise (· < ·)))

/-- The node-by-node order invariant can be checked by running over the tree. -/
instance bst_decidable : (t : AVLTreeNode α) → Decidable (bst t)
  | .nil => isTrue trivial
  | .node v _ l r =>
    have := bst_decidable l
    have := bst_decidable r
    inferInstanceAs (Decidable
      ((∀ a ∈ inorder l, a < v) ∧ (∀ b ∈ inorder r, v < b) ∧ bst l ∧ bst r))

/-- After an insertion of `x` that made the subtree taller, the subtree is a
single leaf or its root is taller on the side on which `x` lies. -/
def leans (x : α) : AVLTreeNode α → Prop
  | .nil => False
  | .node v h l r =>
    h = 1 ∨ (x < v ∧ avl_height l = avl_height r + 1) ∨
      (v < x ∧ avl_height r = avl_height l + 1)

/-- The four invariants of a tree: order, heights, balance and size. -/
def AVLTree.valid (t : AVLTree α) : Prop :=
  ordered t.root ∧ height_ok t.root ∧ balanced t.root ∧
    t.size = (inorder t.root).length

/-- The four invariants can be checked by running over the tree. -/
instance AVLTree.valid_decidable (t : AVLTree α) : Decidable t.valid :=
  inferInstanceAs (Decidable
    (ordered t.root ∧ height_ok t.root ∧ balanced t.root ∧
      t.size = (inorder t.root).length))

/-- The rotation that the unwind step of `avl_insert` selects at `node` for the
inserted value `val` (lines 304-340), `none` when the node is in balance. -/
def avl_insert_select (node : AVLTreeNode α) (val : α) : Option Rotation :=
  match node with
  | .nil => none
  | .node _ _ l r =>
    let balance : Int := (avl_height l : Int) - (avl_height r : Int)
    if balance > 1 then
      match l with
      | .nil => none
      | .node lv _ _ _ => if val < lv then some .left_left else some .left_right
    else if balance < -1 then
      match r with
      | .nil => none
      | .node rv _ _ _ => if val > rv then some .right_right else some .right_left
    else none

/-- Source `avl_insert` with a ghost counter: the third component of the result
is the number of rotations applied during the unwind.  Dropping it gives
`avl_insert` (`avl_insert_counted_erase`). -/
def avl_insert_counted : AVLTreeNode α → α → Nat → Option (AVLTreeNode α × Nat × Nat)
  | .nil, val, size => some (AVLTreeNode.leaf val, size + 1, 0)
  | .node v h l r, val, size =>
    if val < v then
      match avl_insert_counted l val size with
      | none => none
      | some (l1, size1, k) =>
        (avl_insert_rebalance (.node v h l1 r) val).map fun n =>
          (n, size1, k + if (avl_insert_select (.node v h l1 r) val).isSome then 1 else 0)
    else if val > v then
      match avl_insert_counted r val size with
      | none => none
      | some (r1, size1, k) =>
        (avl_insert_rebalance (.node v h l r1) val).map fun n =>
          (n, size1, k + if (avl_insert_select (.node v h l r1) val).isSome then 1 else 0)
    else some (.node v h l r, size, 0)

/-- Modelled on the claim, not on the source: `avl_insert` in which the unwind
picks the rotation by the rule of `avl_remove` (the balance of the taller
child) in place of the comparison of `val` with the value of the child.  The
unwind with that rule is `avl_remove_rebalance`. -/
def avl_insert_remove_rule : AVLTreeNode α → α → Nat → Option (AVLTreeNode α × Nat)
  | .nil, val, size => some (AVLTreeNode.leaf val, size + 1)
  | .node v h l r, val, size =>
    if val < v then
      match avl_insert_remove_rule l val size with
      | none => none
      | some (l1, size1) =>
        (avl_remove_rebalance (.node v h l1 r)).map fun n => (n, size1)
    else if val > v then
      match avl_insert_remove_rule r val size with
      | none => none
      | some (r1, size1) =>
        (avl_remove_rebalance (.node v h l r1)).map fun n => (n, size1)
    else some (.node v h l r, size)

/-- A tree that passes `assert_tree_valid` although 7 lies in the left subtree
of 5: every node is in order with its own children, the stored heights, the
balances and the size are right. -/
def unordered_tree : AVLTree Int :=
  { root := .node 5 3 (.node 3 2 .nil (.leaf 7)) (.leaf 8), size := 4 }

/-- The tree after inserting 3 and 2; inserting 1 makes the unwind rotate at the
root. -/
def example_pair : AVLTreeNode Int :=
  .node 3 2 (.leaf 2) .nil

/-- The insertions of scenario 5 of the specification. -/
def example_ops : List (Op Int) :=
  [.insert 5, .insert 3, .insert 8, .insert 1, .insert 4, .insert 7, .insert 9]

/-- The tree built by `example_ops`. -/
def example_tree : AVLTree Int :=
  { root := .node 5 3 (.node 3 2 (.leaf 1) (.leaf 4)) (.node 8 2 (.leaf 7) (.leaf 9)),
    size := 7 }

/-- A degenerate chain: it satisfies the order invariant, while its stored
heights and its size counter are wrong. -/
def chain_tree : AVLTree Int :=
  { root := .node 1 0 .nil (.node 2 0 .nil (.node 3 0 .nil .nil)), size := 0 }

end Properties

section Lemmas

variable {α : Type}

theorem avl_height_nil : avl_height (AVLTreeNode.nil : AVLTreeNode α) = 0 := rfl

theorem avl_height_node (v : α) (h : Nat) (l r : AVLTreeNode α) :
    avl_height (.node v h l r) = h := rfl

theorem height_ok_node (v : α) (h : Nat) (l r : AVLTreeNode α) :
    height_ok (.node v h l r) ↔
      h = 1 + max (avl_height l) (avl_height r) ∧ height_ok l ∧ height_ok r := Iff.rfl

theorem balanced_node (v : α) (h : Nat) (l r : AVLTreeNode α) :
    balanced (.node v h l r) ↔
      avl_height l ≤ avl_height r + 1 ∧ avl_height r ≤ avl_height l + 1 ∧
        balanced l ∧ balanced r := Iff.rfl

theorem avl_balance_node (v : α) (h : Nat) (l r : AVLTreeNode α) :
    avl_balance (.node v h l r) = (avl_height l : Int) - (avl_height r : Int) := rfl

theorem inorder_nil : inorder (AVLTreeNode.nil : AVLTreeNode α) = [] := rfl

theorem inorder_node (v : α) (h : Nat) (l r : AVLTreeNode α) :
    inorder (.node v h l r) = inorder l ++ v :: inorder r := rfl

theorem dfs_eq_foldl {σ : Type} (cb : σ → AVLTreeNode α → Nat → σ)
    (t : AVLTreeNode α) (d : Nat) (s : σ) :
    dfs cb t d s = (nodes_at t d).foldl (fun acc p => cb acc p.1 p.2) s := by
  induction t generalizing d s with
  | nil => rfl
  | node v h l r ihl ihr =>
    simp only [dfs, nodes_at, List.foldl_append, List.foldl_cons, ihl, ihr]

theorem nodes_at_length (t : AVLTreeNode α) (d : Nat) :
    (nodes_at t d).length = (inorder t).length := by
  induction t generalizing d with
  | nil => rfl
  | node v h l r ihl ihr =>
    simp only [nodes_at, inorder, List.length_append, List.length_cons, ihl, ihr]

theorem visited_count_eq (t : AVLTreeNode α) :
    visited_count t = (inorder t).length := by
  have key : ∀ (xs : List (AVLTreeNode α × Nat)) (n : Nat),
      xs.foldl (fun acc _ => acc + 1) n = n + xs.length := by
    intro xs
    induction xs with
    | nil => intro n; rfl
    | cons p ps ih => intro n; simp only [List.foldl_cons, ih, List.length_cons]; omega
  unfold visited_count
  rw [dfs_eq_foldl, key, nodes_at_length]
  omega

theorem traverse_values (t : AVLTreeNode α) :
    (traverse t).map Prod.fst = inorder t := by
  have key : ∀ (t : AVLTreeNode α) (d : Nat) (acc : List (α × Nat)),
      (dfs (fun acc n d =>
        match n with
        | .nil => acc
        | .node v _ _ _ => acc ++ [(v, d)]) t d acc).map Prod.fst
        = acc.map Prod.fst ++ inorder t := by
    intro t
    induction t with
    | nil => intro d acc; simp [dfs, inorder]
    | node v h l r ihl ihr =>
      intro d acc
      simp only [dfs, inorder, ihl, ihr, List.map_append, List.map_cons, List.map_nil,
        List.append_assoc, List.singleton_append]
  unfold traverse
  rw [key]
  rfl

theorem rebalance_left_left_inorder {z z1 : AVLTreeNode α}
    (h : avl_rebalance_left_left z = some z1) : inorder z1 = inorder z := by
  unfold avl_rebalance_left_left at h
  split at h
  · cases h; simp [inorder]
  · cases h

theorem rebalance_left_right_inorder {z z1 : AVLTreeNode α}
    (h : avl_rebalance_left_right z = some z1) : inorder z1 = inorder z := by
  unfold avl_rebalance_left_right at h
  split at h
  · cases h; simp [inorder]
  · cases h

theorem rebalance_right_right_inorder {z z1 : AVLTreeNode α}
    (h : avl_rebalance_right_right z = some z1) : inorder z1 = inorder z := by
  unfold avl_rebalance_right_right at h
  split at h
  · cases h; simp [inorder]
  · cases h

theorem rebalance_right_left_inorder {z z1 : AVLTreeNode α}
    (h : avl_rebalance_right_left z = some z1) : inorder z1 = inorder z := by
  unfold avl_rebalance_right_left at h
  split at h
  · cases h; simp [inorder]
  · cases h

theorem remove_rebalance_shape (v : α) (h : Nat) (l r : AVLTreeNode α)
    (hl : height_ok l) (bl : balanced l) (hr : height_ok r) (br : balanced r)
    (hd1 : avl_height l ≤ avl_height r + 2) (hd2 : avl_height r ≤ avl_height l + 2) :
    ∃ n, avl_remove_rebalance (.node v h l r) = some n ∧ height_ok n ∧ balanced n ∧
      ((avl_height l ≤ avl_height r + 1 ∧ avl_height r ≤ avl_height l + 1 ∧
          n = .node v (1 + max (avl_height l) (avl_height r)) l r) ∨
       ((avl_height l = avl_height r + 2 ∨ avl_height r = avl_height l + 2) ∧
          (avl_height n = max (avl_height l) (avl_height r) ∨
            avl_height n = 1 + max (avl_height l) (avl_height r)))) := by
  unfold avl_remove_rebalance
  simp only []
  by_cases c1 : ((avl_height l : Int) - (avl_height r : Int)) > 1
  · rw [if_pos c1]
    have e : avl_height l = avl_height r + 2 := by omega
    cases l with
    | nil => simp only [avl_height_nil] at e; omega
    | node lv lh ll lr =>
      simp only [avl_balance_node, avl_height_node, height_ok_node, balanced_node] at e hl bl ⊢
      by_cases c3 : (avl_height ll : Int) - (avl_height lr : Int) ≥ 0
      · rw [if_pos c3]
        cases ll with
        | nil => simp only [avl_height_nil] at *; omega
        | node av ah al ar =>
          simp only [avl_rebalance_left_left, avl_height_node, avl_height_nil, height_ok_node, balanced_node] at *
          obtain ⟨e1, ⟨e2, k1, k2⟩, k3⟩ := hl
          obtain ⟨b1, b2, ⟨b3, b4, k4, k5⟩, k6⟩ := bl
          refine ⟨_, rfl, ?_, ?_, ?_⟩
          · simp only [height_ok_node, avl_height_node]
            refine ⟨by omega, ⟨by omega, ?_, ?_⟩, ⟨by omega, ?_, ?_⟩⟩ <;> assumption
          · simp only [balanced_node, avl_height_node]
            refine ⟨by omega, by omega, ⟨by omega, by omega, ?_, ?_⟩, ⟨by omega, by omega, ?_, ?_⟩⟩ <;> assumption
          · right; simp only [avl_height_node]; omega
      · rw [if_neg c3]
        cases lr with
        | nil => simp only [avl_height_nil] at *; omega
        | node av ah al ar =>
          simp only [avl_rebalance_left_right, avl_height_node, avl_height_nil, height_ok_node, balanced_node] at *
          obtain ⟨e1, k3, ⟨e2, k1, k2⟩⟩ := hl
          obtain ⟨b1, b2, k6, ⟨b3, b4, k4, k5⟩⟩ := bl
          refine ⟨_, rfl, ?_, ?_, ?_⟩
          · simp only [height_ok_node, avl_height_node]
            refine ⟨by omega, ⟨by omega, ?_, ?_⟩, ⟨by omega, ?_, ?_⟩⟩ <;> assumption
          · simp only [balanced_node, avl_height_node]
            refine ⟨by omega, by omega, ⟨by omega, by omega, ?_, ?_⟩, ⟨by omega, by omega, ?_, ?_⟩⟩ <;> assumption
          · right; simp only [avl_height_node]; omega
  · rw [if_neg c1]
    by_cases c2 : ((avl_height l : Int) - (avl_height r : Int)) < -1
    · rw [if_pos c2]
      have e : avl_height r = avl_height l + 2 := by omega
      cases r with
      | nil => simp only [avl_height_nil] at e; omega
      | node rv rh rl rr =>
        simp only [avl_balance_node, avl_height_node, height_ok_node, balanced_node] at e hr br ⊢
        by_cases c3 : (avl_height rl : Int) - (avl_height rr : Int) ≤ 0
        · rw [if_pos c3]
          cases rr with
          | nil => simp only [avl_height_nil] at *; omega
          | node av ah al ar =>
            simp only [avl_rebalance_right_right, avl_height_node, avl_height_nil, height_ok_node, balanced_node] at *
            obtain ⟨e1, k3, ⟨e2, k1, k2⟩⟩ := hr
            obtain ⟨b1, b2, k6, ⟨b3, b4, k4, k5⟩⟩ := br
            refine ⟨_, rfl, ?_, ?_, ?_⟩
            · simp only [height_ok_node, avl_height_node]
              refine ⟨by omega, ⟨by omega, ?_, ?_⟩, ⟨by omega, ?_, ?_⟩⟩ <;> assumption
            · simp only [balanced_node, avl_height_node]
              refine ⟨by omega, by omega, ⟨by omega, by omega, ?_, ?_⟩, ⟨by omega, by omega, ?_, ?_⟩⟩ <;> assumption
            · right; simp only [avl_height_node]; omega
        · rw [if_neg c3]
          cases rl with
          | nil => simp only [avl_height_nil] at *; omega
          | node av ah al ar =>
            simp only [avl_rebalance_right_left, avl_height_node, avl_height_nil, height_ok_node, balanced_node] at *
            obtain ⟨e1, ⟨e2, k1, k2⟩, k3⟩ := hr
            obtain ⟨b1, b2, ⟨b3, b4, k4, k5⟩, k6⟩ := br
            refine ⟨_, rfl, ?_, ?_, ?_⟩
            · simp only [height_ok_node, avl_height_node]
              refine ⟨by omega, ⟨by omega, ?_, ?_⟩, ⟨by omega, ?_, ?_⟩⟩ <;> assumption
            · simp only [balanced_node, avl_height_node]
              refine ⟨by omega, by omega, ⟨by omega, by omega, ?_, ?_⟩, ⟨by omega, by omega, ?_, ?_⟩⟩ <;> assumption
            · right; simp only [avl_height_node]; omega
    · rw [if_neg c2]
      refine ⟨_, rfl, ?_, ?_, ?_⟩
      · exact ⟨rfl, hl, hr⟩
      · exact ⟨by omega, by omega, bl, br⟩
      · left; exact ⟨by omega, by omega, rfl⟩

theorem remove_rebalance_id (t : AVLTreeNode α) (hh : height_ok t) (hb : balanced t) :
    avl_remove_rebalance t = some t := by
  cases t with
  | nil => rfl
  | node v h l r =>
    obtain ⟨e, -, -⟩ := hh
    obtain ⟨b1, b2, -, -⟩ := hb
    unfold avl_remove_rebalance
    simp only []
    rw [if_neg (by omega), if_neg (by omega), ← e]

theorem remove_rebalance_inorder {n n1 : AVLTreeNode α}
    (e : avl_remove_rebalance n = some n1) : inorder n1 = inorder n := by
  cases n with
  | nil => cases e; rfl
  | node v h l r =>
    unfold avl_remove_rebalance at e
    simp only [] at e
    split_ifs at e
    · exact (rebalance_left_left_inorder e).trans rfl
    · exact (rebalance_left_right_inorder e).trans rfl
    · exact (rebalance_right_right_inorder e).trans rfl
    · exact (rebalance_right_left_inorder e).trans rfl
    · cases e; rfl

theorem successor_val_head (l : AVLTreeNode α) :
    ∀ (v : α) (rest : List α),
      ∃ tl, inorder l ++ v :: rest = avl_successor_val v l :: tl := by
  induction l with
  | nil => intro v rest; exact ⟨rest, rfl⟩
  | node lv lh ll lr ihl _ =>
    intro v rest
    obtain ⟨tl, e⟩ := ihl lv (inorder lr ++ v :: rest)
    refine ⟨tl, ?_⟩
    rw [avl_successor_val, ← e, inorder_node, List.append_assoc, List.cons_append]

end Lemmas

section Shape

variable {α : Type} [LinearOrder α]

theorem leans_node (x v : α) (h : Nat) (l r : AVLTreeNode α) :
    leans x (.node v h l r) ↔
      h = 1 ∨ (x < v ∧ avl_height l = avl_height r + 1) ∨
        (v < x ∧ avl_height r = avl_height l + 1) := Iff.rfl

theorem insert_rebalance_shape (v : α) (h : Nat) (l r : AVLTreeNode α) (x : α)
    (hl : height_ok l) (bl : balanced l) (hr : height_ok r) (br : balanced r)
    (hd1 : avl_height l ≤ avl_height r + 2) (hd2 : avl_height r ≤ avl_height l + 2)
    (hL : avl_height l = avl_height r + 2 → leans x l)
    (hR : avl_height r = avl_height l + 2 → leans x r) :
    ∃ n, avl_insert_rebalance (.node v h l r) x = some n ∧ height_ok n ∧ balanced n ∧
      ((avl_height l ≤ avl_height r + 1 ∧ avl_height r ≤ avl_height l + 1 ∧
          n = .node v (1 + max (avl_height l) (avl_height r)) l r) ∨
       ((avl_height l = avl_height r + 2 ∨ avl_height r = avl_height l + 2) ∧
          avl_height n = max (avl_height l) (avl_height r))) := by
  unfold avl_insert_rebalance
  simp only []
  by_cases c1 : ((avl_height l : Int) - (avl_height r : Int)) > 1
  · rw [if_pos c1]
    have e : avl_height l = avl_height r + 2 := by omega
    have hle := hL e
    cases l with
    | nil => simp only [avl_height_nil] at e; omega
    | node lv lh ll lr =>
      simp only [leans_node, avl_height_node, avl_height_nil, height_ok_node, balanced_node] at hle e hl bl ⊢
      rcases hle with h1 | ⟨hx, hh⟩ | ⟨hx, hh⟩
      · omega
      · rw [if_pos hx]
        cases ll with
        | nil => simp only [avl_height_nil] at hh; omega
        | node av ah al ar =>
          simp only [avl_rebalance_left_left, avl_height_node, avl_height_nil, height_ok_node, balanced_node] at *
          obtain ⟨e1, ⟨e2, k1, k2⟩, k3⟩ := hl
          obtain ⟨b1, b2, ⟨b3, b4, k4, k5⟩, k6⟩ := bl
          refine ⟨_, rfl, ?_, ?_, ?_⟩
          · simp only [height_ok_node, avl_height_node]
            refine ⟨by omega, ⟨by omega, ?_, ?_⟩, ⟨by omega, ?_, ?_⟩⟩ <;> assumption
          · simp only [balanced_node, avl_height_node]
            refine ⟨by omega, by omega, ⟨by omega, by omega, ?_, ?_⟩, ⟨by omega, by omega, ?_, ?_⟩⟩ <;> assumption
          · right; simp only [avl_height_node]; omega
      · rw [if_neg (not_lt_of_gt hx)]
        cases lr with
        | nil => simp only [avl_height_nil] at hh; omega
        | node av ah al ar =>
          simp only [avl_rebalance_left_right, avl_height_node, avl_height_nil, height_ok_node, balanced_node] at *
          obtain ⟨e1, k3, ⟨e2, k1, k2⟩⟩ := hl
          obtain ⟨b1, b2, k6, ⟨b3, b4, k4, k5⟩⟩ := bl
          refine ⟨_, rfl, ?_, ?_, ?_⟩
          · simp only [height_ok_node, avl_height_node]
            refine ⟨by omega, ⟨by omega, ?_, ?_⟩, ⟨by omega, ?_, ?_⟩⟩ <;> assumption
          · simp only [balanced_node, avl_height_node]
            refine ⟨by omega, by omega, ⟨by omega, by omega, ?_, ?_⟩, ⟨by omega, by omega, ?_, ?_⟩⟩ <;> assumption
          · right; simp only [avl_height_node]; omega
  · rw [if_neg c1]
    by_cases c2 : ((avl_height l : Int) - (avl_height r : Int)) < -1
    · rw [if_pos c2]
      have e : avl_height r = avl_height l + 2 := by omega
      have hle := hR e
      cases r with
      | nil => simp only [avl_height_nil] at e; omega
      | node rv rh rl rr =>
        simp only [leans_node, avl_height_node, avl_height_nil, height_ok_node, balanced_node] at hle e hr br ⊢
        rcases hle with h1 | ⟨hx, hh⟩ | ⟨hx, hh⟩
        · omega
        · rw [if_neg (not_lt_of_gt hx)]
          cases rl with
          | nil => simp only [avl_height_nil] at hh; omega
          | node av ah al ar =>
            simp only [avl_rebalance_right_left, avl_height_node, avl_height_nil, height_ok_node, balanced_node] at *
            obtain ⟨e1, ⟨e2, k1, k2⟩, k3⟩ := hr
            obtain ⟨b1, b2, ⟨b3, b4, k4, k5⟩, k6⟩ := br
            refine ⟨_, rfl, ?_, ?_, ?_⟩
            · simp only [height_ok_node, avl_height_node]
              refine ⟨by omega, ⟨by omega, ?_, ?_⟩, ⟨by omega, ?_, ?_⟩⟩ <;> assumption
            · simp only [balanced_node, avl_height_node]
              refine ⟨by omega, by omega, ⟨by omega, by omega, ?_, ?_⟩, ⟨by omega, by omega, ?_, ?_⟩⟩ <;> assumption
            · right; simp only [avl_height_node]; omega
        · rw [if_pos hx]
          cases rr with
          | nil => simp only [avl_height_nil] at hh; omega
          | node av ah al ar =>
            simp only [avl_rebalance_right_right, avl_height_node, avl_height_nil, height_ok_node, balanced_node] at *
            obtain ⟨e1, k3, ⟨e2, k1, k2⟩⟩ := hr
            obtain ⟨b1, b2, k6, ⟨b3, b4, k4, k5⟩⟩ := br
            refine ⟨_, rfl, ?_, ?_, ?_⟩
            · simp only [height_ok_node, avl_height_node]
              refine ⟨by omega, ⟨by omega, ?_, ?_⟩, ⟨by omega, ?_, ?_⟩⟩ <;> assumption
            · simp only [balanced_node, avl_height_node]
              refine ⟨by omega, by omega, ⟨by omega, by omega, ?_, ?_⟩, ⟨by omega, by omega, ?_, ?_⟩⟩ <;> assumption
            · right; simp only [avl_height_node]; omega
    · rw [if_neg c2]
      refine ⟨_, rfl, ?_, ?_, ?_⟩
      · exact ⟨rfl, hl, hr⟩
      · exact ⟨by omega, by omega, bl, br⟩
      · left; exact ⟨by omega, by omega, rfl⟩

theorem insert_rebalance_id (v : α) (h : Nat) (l r : AVLTreeNode α) (x : α)
    (hh : h = 1 + max (avl_height l) (avl_height r))
    (b1 : avl_height l ≤ avl_height r + 1) (b2 : avl_height r ≤ avl_height l + 1) :
    avl_insert_rebalance (.node v h l r) x = some (.node v h l r) := by
  unfold avl_insert_rebalance
  simp only []
  rw [if_neg (by omega), if_neg (by omega), ← hh]

theorem avl_insert_shape (t : AVLTreeNode α) (x : α) (s : Nat)
    (hh : height_ok t) (hb : balanced t) :
    ∃ t1 s1, avl_insert t x s = some (t1, s1) ∧ height_ok t1 ∧ balanced t1 ∧
      (avl_height t1 = avl_height t ∨
        (avl_height t1 = avl_height t + 1 ∧ leans x t1)) := by
  induction t with
  | nil =>
    refine ⟨AVLTreeNode.leaf x, s + 1, rfl, ⟨rfl, trivial, trivial⟩,
      ⟨by simp [avl_height_nil], by simp [avl_height_nil], trivial, trivial⟩, Or.inr ⟨rfl, Or.inl rfl⟩⟩
  | node v h l r ihl ihr =>
    obtain ⟨e, hl, hr⟩ := hh
    obtain ⟨b1, b2, bl, br⟩ := hb
    by_cases c1 : x < v
    · obtain ⟨l1, s1, e1, hl1, bl1, g⟩ := ihl hl bl
      obtain ⟨n, en, hn, bn, g2⟩ := insert_rebalance_shape v h l1 r x hl1 bl1 hr br
        (by omega) (by omega) (fun k => by rcases g with g | ⟨g, lz⟩; · omega
                                           · exact lz)
        (fun k => by omega)
      have g' : avl_height l1 = avl_height l ∨ avl_height l1 = avl_height l + 1 := by
        rcases g with g | ⟨g, -⟩
        · exact Or.inl g
        · exact Or.inr g
      refine ⟨n, s1, ?_, hn, bn, ?_⟩
      · rw [avl_insert, if_pos c1, e1]
        simp only [en, Option.map_some']
      · simp only [avl_height_node]
        rcases g2 with ⟨q1, q2, rfl⟩ | ⟨k, ek⟩
        · simp only [avl_height_node, leans_node]
          rcases g' with g | g
          · left; omega
          · by_cases c : avl_height l1 = avl_height r + 1
            · by_cases c' : avl_height l = avl_height r
              · right; exact ⟨by omega, Or.inr (Or.inl ⟨c1, c⟩)⟩
              · left; omega
            · left; omega
        · left; omega
    · by_cases c2 : x > v
      · obtain ⟨r1, s1, e1, hr1, br1, g⟩ := ihr hr br
        obtain ⟨n, en, hn, bn, g2⟩ := insert_rebalance_shape v h l r1 x hl bl hr1 br1
          (by omega) (by omega) (fun k => by omega)
          (fun k => by rcases g with g | ⟨g, lz⟩; · omega
                       · exact lz)
        have g' : avl_height r1 = avl_height r ∨ avl_height r1 = avl_height r + 1 := by
          rcases g with g | ⟨g, -⟩
          · exact Or.inl g
          · exact Or.inr g
        clear g
        refine ⟨n, s1, ?_, hn, bn, ?_⟩
        · rw [avl_insert, if_neg c1, if_pos c2, e1]
          simp only [en, Option.map_some']
        · simp only [avl_height_node]
          rcases g2 with ⟨q1, q2, rfl⟩ | ⟨k, ek⟩
          · simp only [avl_height_node, leans_node]
            rcases g' with g | g
            · left; omega
            · by_cases c : avl_height r1 = avl_height l + 1
              · by_cases c' : avl_height r = avl_height l
                · right; exact ⟨by omega, Or.inr (Or.inr ⟨c2, c⟩)⟩
                · left; omega
              · left; omega
          · left; omega
      · refine ⟨.node v h l r, s, ?_, ⟨e, hl, hr⟩, ⟨b1, b2, bl, br⟩, Or.inl rfl⟩
        rw [avl_insert, if_neg c1, if_neg c2]

theorem avl_remove_lt (v : α) (h : Nat) (l r : AVLTreeNode α) (x : α) (s : Nat)
    (c : x < v) :
    avl_remove (.node v h l r) x s =
      match avl_remove l x s with
      | none => none
      | some (l1, s1) => (avl_remove_rebalance (.node v h l1 r)).map fun n => (n, s1) := by
  cases l <;> cases r <;> simp only [avl_remove, if_pos c]

theorem avl_remove_gt (v : α) (h : Nat) (l r : AVLTreeNode α) (x : α) (s : Nat)
    (c1 : ¬ x < v) (c : x > v) :
    avl_remove (.node v h l r) x s =
      match avl_remove r x s with
      | none => none
      | some (r1, s1) => (avl_remove_rebalance (.node v h l r1)).map fun n => (n, s1) := by
  cases l <;> cases r <;> simp only [avl_remove, if_neg c1, if_pos c]

theorem avl_remove_leaf (v : α) (h : Nat) (x : α) (s : Nat)
    (c1 : ¬ x < v) (c2 : ¬ x > v) :
    avl_remove (.node v h .nil .nil) x s = some (.nil, s - 1) := by
  simp only [avl_remove, if_neg c1, if_neg c2, avl_remove_rebalance, Option.map_some']

theorem avl_remove_only_right (v : α) (h : Nat) (rv : α) (rh : Nat)
    (rl rr : AVLTreeNode α) (x : α) (s : Nat) (c1 : ¬ x < v) (c2 : ¬ x > v) :
    avl_remove (.node v h .nil (.node rv rh rl rr)) x s =
      (avl_remove_rebalance (.node rv rh rl rr)).map fun n => (n, s - 1) := by
  simp only [avl_remove, if_neg c1, if_neg c2]

theorem avl_remove_only_left (v : α) (h : Nat) (lv : α) (lh : Nat)
    (ll lr : AVLTreeNode α) (x : α) (s : Nat) (c1 : ¬ x < v) (c2 : ¬ x > v) :
    avl_remove (.node v h (.node lv lh ll lr) .nil) x s =
      (avl_remove_rebalance (.node lv lh ll lr)).map fun n => (n, s - 1) := by
  simp only [avl_remove, if_neg c1, if_neg c2]

theorem avl_remove_two (v : α) (h : Nat) (lv : α) (lh : Nat) (ll lr : AVLTreeNode α)
    (rv : α) (rh : Nat) (rl rr : AVLTreeNode α) (x : α) (s : Nat)
    (c1 : ¬ x < v) (c2 : ¬ x > v) :
    avl_remove (.node v h (.node lv lh ll lr) (.node rv rh rl rr)) x s =
      match avl_remove (.node rv rh rl rr) (avl_successor_val rv rl) 0 with
      | none => none
      | some (r1, _) =>
        (avl_remove_rebalance
          (.node (avl_successor_val rv rl) h (.node lv lh ll lr) r1)).map
            fun n => (n, s - 1) := by
  rw [avl_remove, if_neg c1, if_neg c2]
  · simp only [avl_successor]
    cases avl_remove (.node rv rh rl rr) (avl_successor_val rv rl) 0 with
    | none => rfl
    | some p => rfl
  all_goals (intros; contradiction)

theorem avl_remove_shape (t : AVLTreeNode α) (hh : height_ok t) (hb : balanced t) :
    ∀ (x : α) (s : Nat), ∃ t1 s1, avl_remove t x s = some (t1, s1) ∧
      height_ok t1 ∧ balanced t1 ∧
      (avl_height t1 = avl_height t ∨ avl_height t1 + 1 = avl_height t) := by
  induction t with
  | nil =>
    intro x s
    exact ⟨.nil, s, rfl, trivial, trivial, Or.inl rfl⟩
  | node v h l r ihl ihr =>
    intro x s
    obtain ⟨e, hl, hr⟩ := hh
    obtain ⟨b1, b2, bl, br⟩ := hb
    by_cases c1 : x < v
    · obtain ⟨l1, s1, e1, hl1, bl1, g⟩ := ihl hl bl x s
      obtain ⟨n, en, hn, bn, g2⟩ := remove_rebalance_shape v h l1 r hl1 bl1 hr br
        (by omega) (by omega)
      refine ⟨n, s1, ?_, hn, bn, ?_⟩
      · rw [avl_remove_lt _ _ _ _ _ _ c1, e1]
        simp only [en, Option.map_some']
      · simp only [avl_height_node]
        rcases g2 with ⟨q1, q2, rfl⟩ | ⟨k, ek⟩
        · simp only [avl_height_node]; omega
        · omega
    · by_cases c2 : x > v
      · obtain ⟨r1, s1, e1, hr1, br1, g⟩ := ihr hr br x s
        obtain ⟨n, en, hn, bn, g2⟩ := remove_rebalance_shape v h l r1 hl bl hr1 br1
          (by omega) (by omega)
        refine ⟨n, s1, ?_, hn, bn, ?_⟩
        · rw [avl_remove_gt _ _ _ _ _ _ c1 c2, e1]
          simp only [en, Option.map_some']
        · simp only [avl_height_node]
          rcases g2 with ⟨q1, q2, rfl⟩ | ⟨k, ek⟩
          · simp only [avl_height_node]; omega
          · omega
      · cases l with
        | nil =>
          cases r with
          | nil =>
            refine ⟨.nil, s - 1, ?_, trivial, trivial, ?_⟩
            · exact avl_remove_leaf _ _ _ _ c1 c2
            · simp only [avl_height_node, avl_height_nil] at *; omega
          | node rv rh rl rr =>
            refine ⟨.node rv rh rl rr, s - 1, ?_, hr, br, ?_⟩
            · rw [avl_remove_only_right _ _ _ _ _ _ _ _ c1 c2]
              simp only [remove_rebalance_id _ hr br, Option.map_some']
            · simp only [avl_height_node, avl_height_nil] at *; omega
        | node lv lh ll lr =>
          cases r with
          | nil =>
            refine ⟨.node lv lh ll lr, s - 1, ?_, hl, bl, ?_⟩
            · rw [avl_remove_only_left _ _ _ _ _ _ _ _ c1 c2]
              simp only [remove_rebalance_id _ hl bl, Option.map_some']
            · simp only [avl_height_node, avl_height_nil] at *; omega
          | node rv rh rl rr =>
            obtain ⟨r1, s1, e1, hr1, br1, g⟩ :=
              ihr hr br (avl_successor_val rv rl) 0
            obtain ⟨n, en, hn, bn, g2⟩ :=
              remove_rebalance_shape (avl_successor_val rv rl) h (.node lv lh ll lr) r1
                hl bl hr1 br1 (by omega) (by omega)
            refine ⟨n, s - 1, ?_, hn, bn, ?_⟩
            · rw [avl_remove_two _ _ _ _ _ _ _ _ _ _ _ _ c1 c2, e1]
              simp only [en, Option.map_some']
            · simp only [avl_height_node] at *
              rcases g2 with ⟨q1, q2, rfl⟩ | ⟨k, ek⟩
              · simp only [avl_height_node]; omega
              · omega

end Shape

section Order

variable {α : Type} [LinearOrder α]

theorem ordered_nil : ordered (AVLTreeNode.nil : AVLTreeNode α) := List.Pairwise.nil

theorem ordered_node (v : α) (h : Nat) (l r : AVLTreeNode α) :
    ordered (.node v h l r) ↔
      ordered l ∧ ordered r ∧ (∀ a ∈ inorder l, a < v) ∧ (∀ b ∈ inorder r, v < b) := by
  unfold ordered
  rw [inorder_node, List.pairwise_append, List.pairwise_cons]
  constructor
  · rintro ⟨hl, ⟨hv, hr⟩, hlr⟩
    exact ⟨hl, hr, fun a ha => hlr a ha v (List.mem_cons_self _ _), hv⟩
  · rintro ⟨hl, hr, h1, h2⟩
    refine ⟨hl, ⟨h2, hr⟩, ?_⟩
    intro a ha b hb
    rcases List.mem_cons.1 hb with rfl | hb
    · exact h1 a ha
    · exact lt_trans (h1 a ha) (h2 b hb)

theorem insert_rebalance_inorder {n n1 : AVLTreeNode α} {x : α}
    (e : avl_insert_rebalance n x = some n1) : inorder n1 = inorder n := by
  cases n with
  | nil => simp [avl_insert_rebalance] at e
  | node v h l r =>
    unfold avl_insert_rebalance at e
    simp only [] at e
    by_cases c1 : ((avl_height l : Int) - (avl_height r : Int)) > 1
    · rw [if_pos c1] at e
      cases l with
      | nil => simp at e
      | node lv lh ll lr =>
        simp only [] at e
        split_ifs at e
        · exact (rebalance_left_left_inorder e).trans rfl
        · exact (rebalance_left_right_inorder e).trans rfl
    · rw [if_neg c1] at e
      by_cases c2 : ((avl_height l : Int) - (avl_height r : Int)) < -1
      · rw [if_pos c2] at e
        cases r with
        | nil => simp at e
        | node rv rh rl rr =>
          simp only [] at e
          split_ifs at e
          · exact (rebalance_right_right_inorder e).trans rfl
          · exact (rebalance_right_left_inorder e).trans rfl
      · rw [if_neg c2] at e
        cases e
        rfl

theorem avl_insert_inorder (t : AVLTreeNode α) (x : α) (ho : ordered t) :
    ∀ (s : Nat) (t1 : AVLTreeNode α) (s1 : Nat), avl_insert t x s = some (t1, s1) →
      (x ∈ inorder t ∧ inorder t1 = inorder t ∧ s1 = s) ∨
      (∃ ys zs, inorder t = ys ++ zs ∧ inorder t1 = ys ++ x :: zs ∧
        (∀ y ∈ ys, y < x) ∧ (∀ z ∈ zs, x < z) ∧ s1 = s + 1) := by
  induction t with
  | nil =>
    intro s t1 s1 e
    cases e
    exact Or.inr ⟨[], [], rfl, rfl, by simp, by simp, rfl⟩
  | node v h l r ihl ihr =>
    intro s t1 s1 e
    obtain ⟨ol, or', hlv, hrv⟩ := (ordered_node v h l r).1 ho
    by_cases c1 : x < v
    · rw [avl_insert, if_pos c1] at e
      cases e1 : avl_insert l x s with
      | none => rw [e1] at e; cases e
      | some p =>
        obtain ⟨l1, s2⟩ := p
        rw [e1] at e
        simp only [] at e
        cases e2 : avl_insert_rebalance (.node v h l1 r) x with
        | none => rw [e2] at e; cases e
        | some n =>
          rw [e2] at e
          cases e
          rw [insert_rebalance_inorder e2, inorder_node, inorder_node]
          rcases ihl ol s l1 s1 e1 with ⟨hm, hi, hs⟩ | ⟨ys, zs, h1, h2, h3, h4, hs⟩
          · exact Or.inl ⟨List.mem_append_left _ hm, by rw [hi], hs⟩
          · refine Or.inr ⟨ys, zs ++ v :: inorder r, ?_, ?_, h3, ?_, hs⟩
            · rw [h1, List.append_assoc]
            · rw [h2]; simp
            · intro z hz
              rcases List.mem_append.1 hz with hz | hz
              · exact h4 z hz
              · rcases List.mem_cons.1 hz with rfl | hz
                · exact c1
                · exact lt_trans c1 (hrv z hz)
    · by_cases c2 : x > v
      · rw [avl_insert, if_neg c1, if_pos c2] at e
        cases e1 : avl_insert r x s with
        | none => rw [e1] at e; cases e
        | some p =>
          obtain ⟨r1, s2⟩ := p
          rw [e1] at e
          simp only [] at e
          cases e2 : avl_insert_rebalance (.node v h l r1) x with
          | none => rw [e2] at e; cases e
          | some n =>
            rw [e2] at e
            cases e
            rw [insert_rebalance_inorder e2, inorder_node, inorder_node]
            rcases ihr or' s r1 s1 e1 with ⟨hm, hi, hs⟩ | ⟨ys, zs, h1, h2, h3, h4, hs⟩
            · exact Or.inl ⟨List.mem_append_right _ (List.mem_cons_of_mem _ hm),
                by rw [hi], hs⟩
            · refine Or.inr ⟨inorder l ++ v :: ys, zs, ?_, ?_, ?_, h4, hs⟩
              · rw [h1]; simp
              · rw [h2]; simp
              · intro y hy
                rcases List.mem_append.1 hy with hy | hy
                · exact lt_trans (hlv y hy) c2
                · rcases List.mem_cons.1 hy with rfl | hy
                  · exact c2
                  · exact h3 y hy
      · rw [avl_insert, if_neg c1, if_neg c2] at e
        cases e
        have hxv : x = v := le_antisymm (not_lt.1 c2) (not_lt.1 c1)
        refine Or.inl ⟨?_, rfl, rfl⟩
        rw [inorder_node, hxv]
        exact List.mem_append_right _ (List.mem_cons_self _ _)

theorem avl_has_iff (t : AVLTreeNode α) (ho : ordered t) (x : α) :
    avl_has t x = true ↔ x ∈ inorder t := by
  induction t with
  | nil => simp [avl_has, inorder_nil]
  | node v h l r ihl ihr =>
    obtain ⟨ol, or', hlv, hrv⟩ := (ordered_node v h l r).1 ho
    rw [avl_has, inorder_node, List.mem_append, List.mem_cons]
    by_cases c1 : x < v
    · rw [if_pos c1, ihl ol]
      constructor
      · exact Or.inl
      · rintro (hm | rfl | hm)
        · exact hm
        · exact absurd c1 (lt_irrefl _)
        · exact absurd (lt_trans c1 (hrv x hm)) (lt_irrefl _)
    · rw [if_neg c1]
      by_cases c2 : x > v
      · rw [if_pos c2, ihr or']
        constructor
        · exact fun hm => Or.inr (Or.inr hm)
        · rintro (hm | rfl | hm)
          · exact absurd (lt_trans c2 (hlv x hm)) (lt_irrefl _)
          · exact absurd c2 (lt_irrefl _)
          · exact hm
      · rw [if_neg c2]
        have hxv : x = v := le_antisymm (not_lt.1 c2) (not_lt.1 c1)
        simp [hxv]

theorem erase_absent_of_bounds (x v : α) (xs ys : List α)
    (h1 : ∀ a ∈ xs, a < v) (h2 : ∀ b ∈ ys, v < b) (c : x < v) :
    (xs ++ v :: ys).erase x = xs.erase x ++ v :: ys := by
  by_cases hx : x ∈ xs
  · exact List.erase_append_left _ hx
  · rw [List.erase_append_right _ hx, List.erase_of_not_mem hx, List.erase_of_not_mem]
    intro hm
    rcases List.mem_cons.1 hm with rfl | hm
    · exact lt_irrefl _ c
    · exact lt_irrefl _ (lt_trans c (h2 x hm))

theorem avl_remove_inorder (t : AVLTreeNode α) (ho : ordered t) :
    ∀ (x : α) (s : Nat) (t1 : AVLTreeNode α) (s1 : Nat),
      avl_remove t x s = some (t1, s1) →
        inorder t1 = (inorder t).erase x ∧
          s1 = if x ∈ inorder t then s - 1 else s := by
  induction t with
  | nil =>
    intro x s t1 s1 e
    cases e
    simp [inorder_nil]
  | node v h l r ihl ihr =>
    intro x s t1 s1 e
    obtain ⟨ol, or', hlv, hrv⟩ := (ordered_node v h l r).1 ho
    have hxr : ∀ {y : α}, y < v → y ∉ v :: inorder r := by
      intro y c hm
      rcases List.mem_cons.1 hm with rfl | hm
      · exact lt_irrefl _ c
      · exact lt_irrefl _ (lt_trans c (hrv y hm))
    by_cases c1 : x < v
    · rw [avl_remove_lt _ _ _ _ _ _ c1] at e
      cases e1 : avl_remove l x s with
      | none => rw [e1] at e; cases e
      | some p =>
        obtain ⟨l1, s2⟩ := p
        rw [e1] at e
        simp only [] at e
        cases e2 : avl_remove_rebalance (.node v h l1 r) with
        | none => rw [e2] at e; cases e
        | some n =>
          rw [e2] at e
          cases e
          obtain ⟨hi, hs⟩ := ihl ol x s l1 s1 e1
          rw [remove_rebalance_inorder e2, inorder_node, inorder_node, hi,
            erase_absent_of_bounds x v _ _ hlv hrv c1]
          refine ⟨rfl, ?_⟩
          rw [hs]
          by_cases hx : x ∈ inorder l
          · rw [if_pos hx, if_pos (List.mem_append_left _ hx)]
          · rw [if_neg hx, if_neg]
            intro hm
            rcases List.mem_append.1 hm with hm | hm
            · exact hx hm
            · exact hxr c1 hm
    · by_cases c2 : x > v
      · rw [avl_remove_gt _ _ _ _ _ _ c1 c2] at e
        have hxl : x ∉ inorder l := fun hm => lt_irrefl _ (lt_trans c2 (hlv x hm))
        cases e1 : avl_remove r x s with
        | none => rw [e1] at e; cases e
        | some p =>
          obtain ⟨r1, s2⟩ := p
          rw [e1] at e
          simp only [] at e
          cases e2 : avl_remove_rebalance (.node v h l r1) with
          | none => rw [e2] at e; cases e
          | some n =>
            rw [e2] at e
            cases e
            obtain ⟨hi, hs⟩ := ihr or' x s r1 s1 e1
            rw [remove_rebalance_inorder e2, inorder_node, inorder_node, hi,
              List.erase_append_right _ hxl, List.erase_cons_tail (by
                simpa using (ne_of_gt c2).symm)]
            refine ⟨rfl, ?_⟩
            rw [hs]
            by_cases hx : x ∈ inorder r
            · rw [if_pos hx, if_pos (List.mem_append_right _ (List.mem_cons_of_mem _ hx))]
            · rw [if_neg hx, if_neg]
              intro hm
              rcases List.mem_append.1 hm with hm | hm
              · exact hxl hm
              · rcases List.mem_cons.1 hm with rfl | hm
                · exact lt_irrefl _ c2
                · exact hx hm
      · have hxv : x = v := le_antisymm (not_lt.1 c2) (not_lt.1 c1)
        subst hxv
        have hxl : x ∉ inorder l := fun hm => lt_irrefl _ (hlv x hm)
        have hmem : x ∈ inorder (.node x h l r) := by
          rw [inorder_node]; exact List.mem_append_right _ (List.mem_cons_self _ _)
        have herase : (inorder (.node x h l r)).erase x = inorder l ++ inorder r := by
          rw [inorder_node, List.erase_append_right _ hxl, List.erase_cons_head]
        rw [herase, if_pos hmem]
        cases l with
        | nil =>
          cases r with
          | nil =>
            rw [avl_remove_leaf _ _ _ _ c1 c2] at e
            cases e
            exact ⟨rfl, rfl⟩
          | node rv rh rl rr =>
            rw [avl_remove_only_right _ _ _ _ _ _ _ _ c1 c2] at e
            cases e2 : avl_remove_rebalance (.node rv rh rl rr) with
            | none => rw [e2] at e; cases e
            | some n =>
              rw [e2] at e
              cases e
              exact ⟨by rw [remove_rebalance_inorder e2, inorder_nil, List.nil_append], rfl⟩
        | node lv lh ll lr =>
          cases r with
          | nil =>
            rw [avl_remove_only_left _ _ _ _ _ _ _ _ c1 c2] at e
            cases e2 : avl_remove_rebalance (.node lv lh ll lr) with
            | none => rw [e2] at e; cases e
            | some n =>
              rw [e2] at e
              cases e
              exact ⟨by rw [remove_rebalance_inorder e2, inorder_nil, List.append_nil], rfl⟩
          | node rv rh rl rr =>
            rw [avl_remove_two _ _ _ _ _ _ _ _ _ _ _ _ c1 c2] at e
            cases e1 : avl_remove (.node rv rh rl rr) (avl_successor_val rv rl) 0 with
            | none => rw [e1] at e; cases e
            | some p =>
              obtain ⟨r1, s2⟩ := p
              rw [e1] at e
              simp only [] at e
              cases e2 : avl_remove_rebalance
                  (.node (avl_successor_val rv rl) h (.node lv lh ll lr) r1) with
              | none => rw [e2] at e; cases e
              | some n =>
                rw [e2] at e
                cases e
                obtain ⟨hi, -⟩ := ihr or' _ _ _ _ e1
                obtain ⟨tl, htl⟩ := successor_val_head rl rv (inorder rr)
                rw [inorder_node] at hi
                rw [htl, List.erase_cons_head] at hi
                refine ⟨?_, rfl⟩
                rw [remove_rebalance_inorder e2, inorder_node, hi,
                  inorder_node rv rh rl rr, htl]

end Order

section Reachable

variable {α : Type} [LinearOrder α]

theorem avl_insert_present (t : AVLTreeNode α) (hh : height_ok t) (hb : balanced t)
    (x : α) (s : Nat) (hx : avl_has t x = true) : avl_insert t x s = some (t, s) := by
  induction t with
  | nil => simp [avl_has] at hx
  | node v h l r ihl ihr =>
    obtain ⟨e, hl, hr⟩ := hh
    obtain ⟨b1, b2, bl, br⟩ := hb
    rw [avl_has] at hx
    by_cases c1 : x < v
    · rw [if_pos c1] at hx
      rw [avl_insert, if_pos c1, ihl hl bl hx]
      simp only [insert_rebalance_id v h l r x e b1 b2, Option.map_some']
    · rw [if_neg c1] at hx
      by_cases c2 : x > v
      · rw [if_pos c2] at hx
        rw [avl_insert, if_neg c1, if_pos c2, ihr hr br hx]
        simp only [insert_rebalance_id v h l r x e b1 b2, Option.map_some']
      · rw [avl_insert, if_neg c1, if_neg c2]

theorem avl_remove_absent (t : AVLTreeNode α) (hh : height_ok t) (hb : balanced t)
    (x : α) (s : Nat) (hx : avl_has t x = false) : avl_remove t x s = some (t, s) := by
  induction t with
  | nil => rfl
  | node v h l r ihl ihr =>
    have hid := remove_rebalance_id (.node v h l r) hh hb
    obtain ⟨e, hl, hr⟩ := hh
    obtain ⟨b1, b2, bl, br⟩ := hb
    rw [avl_has] at hx
    by_cases c1 : x < v
    · rw [if_pos c1] at hx
      rw [avl_remove_lt _ _ _ _ _ _ c1, ihl hl bl hx]
      simp only [hid, Option.map_some']
    · rw [if_neg c1] at hx
      by_cases c2 : x > v
      · rw [if_pos c2] at hx
        rw [avl_remove_gt _ _ _ _ _ _ c1 c2, ihr hr br hx]
        simp only [hid, Option.map_some']
      · rw [if_neg c2] at hx
        cases hx

theorem pairwise_insert_mid (x : α) (ys zs : List α)
    (h : (ys ++ zs).Pairwise (· < ·)) (h1 : ∀ y ∈ ys, y < x) (h2 : ∀ z ∈ zs, x < z) :
    (ys ++ x :: zs).Pairwise (· < ·) := by
  rw [List.pairwise_append] at h ⊢
  obtain ⟨p1, p2, p3⟩ := h
  refine ⟨p1, List.pairwise_cons.2 ⟨h2, p2⟩, ?_⟩
  intro a ha b hb
  rcases List.mem_cons.1 hb with rfl | hb
  · exact h1 a ha
  · exact p3 a ha b hb

theorem AVLTree.empty_valid : (AVLTree.empty : AVLTree α).valid :=
  ⟨ordered_nil, trivial, trivial, rfl⟩

theorem AVLTree.insert_valid (t : AVLTree α) (hv : t.valid) (x : α) :
    ∃ t1, t.insert x = some t1 ∧ t1.valid ∧
      (∀ y, y ∈ inorder t1.root ↔ y = x ∨ y ∈ inorder t.root) := by
  obtain ⟨ho, hh, hb, hs⟩ := hv
  obtain ⟨r1, s1, e, hh1, hb1, -⟩ := avl_insert_shape t.root x t.size hh hb
  refine ⟨⟨r1, s1⟩, ?_, ?_⟩
  · unfold AVLTree.insert
    rw [e]
    rfl
  · rcases avl_insert_inorder t.root x ho t.size r1 s1 e with
      ⟨hm, hi, hs1⟩ | ⟨ys, zs, h1, h2, h3, h4, hs1⟩
    · refine ⟨⟨?_, hh1, hb1, ?_⟩, ?_⟩
      · show (inorder r1).Pairwise (· < ·)
        rw [hi]; exact ho
      · show s1 = (inorder r1).length
        rw [hi, hs1]; exact hs
      · intro y
        show y ∈ inorder r1 ↔ _
        rw [hi]
        constructor
        · exact Or.inr
        · rintro (rfl | h)
          · exact hm
          · exact h
    · refine ⟨⟨?_, hh1, hb1, ?_⟩, ?_⟩
      · show (inorder r1).Pairwise (· < ·)
        rw [h2]
        exact pairwise_insert_mid x ys zs (h1 ▸ ho) h3 h4
      · show s1 = (inorder r1).length
        rw [h2, hs1, hs, h1]
        simp only [List.length_append, List.length_cons]
        omega
      · intro y
        show y ∈ inorder r1 ↔ _
        rw [h2, h1]
        simp only [List.mem_append, List.mem_cons]
        tauto

theorem AVLTree.remove_valid (t : AVLTree α) (hv : t.valid) (x : α) :
    ∃ t1, t.remove x = some t1 ∧ t1.valid ∧
      inorder t1.root = (inorder t.root).erase x := by
  obtain ⟨ho, hh, hb, hs⟩ := hv
  obtain ⟨r1, s1, e, hh1, hb1, -⟩ := avl_remove_shape t.root hh hb x t.size
  obtain ⟨hi, hs1⟩ := avl_remove_inorder t.root ho x t.size r1 s1 e
  refine ⟨⟨r1, s1⟩, ?_, ⟨?_, hh1, hb1, ?_⟩, hi⟩
  · unfold AVLTree.remove
    rw [e]
    rfl
  · show (inorder r1).Pairwise (· < ·)
    rw [hi]
    exact List.Pairwise.sublist (List.erase_sublist _ _) ho
  · show s1 = (inorder r1).length
    rw [hi, hs1]
    by_cases hx : x ∈ inorder t.root
    · rw [if_pos hx, List.length_erase_of_mem hx, hs]
    · rw [if_neg hx, List.erase_of_not_mem hx, hs]

theorem AVLTree.apply_valid (t : AVLTree α) (hv : t.valid) (op : Op α) :
    ∃ t1, t.apply op = some t1 ∧ t1.valid := by
  cases op with
  | insert x =>
    obtain ⟨t1, e, hv1, -⟩ := AVLTree.insert_valid t hv x
    exact ⟨t1, e, hv1⟩
  | remove x =>
    obtain ⟨t1, e, hv1, -⟩ := AVLTree.remove_valid t hv x
    exact ⟨t1, e, hv1⟩

theorem AVLTree.applyAll_valid (ops : List (Op α)) :
    ∀ (t : AVLTree α), t.valid → ∃ t1, AVLTree.applyAll t ops = some t1 ∧ t1.valid := by
  induction ops with
  | nil => intro t hv; exact ⟨t, rfl, hv⟩
  | cons op ops ih =>
    intro t hv
    obtain ⟨t1, e, hv1⟩ := AVLTree.apply_valid t hv op
    obtain ⟨t2, e2, hv2⟩ := ih t1 hv1
    refine ⟨t2, ?_, hv2⟩
    rw [AVLTree.applyAll, e]
    exact e2

theorem AVLTree.run_valid (ops : List (Op α)) :
    ∃ t, AVLTree.run ops = some t ∧ t.valid :=
  AVLTree.applyAll_valid ops AVLTree.empty AVLTree.empty_valid

end Reachable

section Nodes

variable {α : Type}

theorem nodes_at_fst (t : AVLTreeNode α) :
    ∀ d, (nodes_at t d).map Prod.fst = nodes t := by
  unfold nodes
  induction t with
  | nil => intro d; rfl
  | node v h l r ihl ihr =>
    intro d
    simp only [nodes_at, List.map_append, List.map_cons, ihl (d + 1), ihr (d + 1),
      ihl (0 + 1), ihr (0 + 1)]

theorem nodes_node (v : α) (h : Nat) (l r : AVLTreeNode α) :
    nodes (.node v h l r) = nodes l ++ .node v h l r :: nodes r := by
  rw [← nodes_at_fst (.node v h l r) 0, nodes_at, List.map_append, List.map_cons,
    nodes_at_fst, nodes_at_fst]

theorem balanced_iff_nodes (t : AVLTreeNode α) :
    balanced t ↔ ∀ n ∈ nodes t, |avl_balance n| ≤ 1 := by
  induction t with
  | nil => simp [balanced, nodes, nodes_at]
  | node v h l r ihl ihr =>
    rw [balanced_node, nodes_node, ihl, ihr]
    simp only [List.mem_append, List.mem_cons]
    constructor
    · rintro ⟨b1, b2, hl, hr⟩ n (hn | rfl | hn)
      · exact hl n hn
      · rw [avl_balance_node, abs_le]; constructor <;> omega
      · exact hr n hn
    · intro hall
      have := hall (.node v h l r) (Or.inr (Or.inl rfl))
      rw [avl_balance_node, abs_le] at this
      exact ⟨by omega, by omega, fun n hn => hall n (Or.inl hn),
        fun n hn => hall n (Or.inr (Or.inr hn))⟩

theorem height_ok_iff_nodes (t : AVLTreeNode α) :
    height_ok t ↔ ∀ n ∈ nodes t, node_height_ok n := by
  induction t with
  | nil => simp [height_ok, nodes, nodes_at]
  | node v h l r ihl ihr =>
    rw [height_ok_node, nodes_node, ihl, ihr]
    simp only [List.mem_append, List.mem_cons]
    constructor
    · rintro ⟨e, hl, hr⟩ n (hn | rfl | hn)
      · exact hl n hn
      · exact e
      · exact hr n hn
    · intro hall
      exact ⟨hall (.node v h l r) (Or.inr (Or.inl rfl)), fun n hn => hall n (Or.inl hn),
        fun n hn => hall n (Or.inr (Or.inr hn))⟩

theorem height_ok_true_height (t : AVLTreeNode α) (hh : height_ok t) :
    avl_height t = true_height t := by
  induction t with
  | nil => rfl
  | node v h l r ihl ihr =>
    obtain ⟨e, hl, hr⟩ := hh
    rw [avl_height_node, true_height, ← ihl hl, ← ihr hr, e]

theorem true_balance_eq (n : AVLTreeNode α) (hh : height_ok n) :
    true_balance n = avl_balance n := by
  cases n with
  | nil => rfl
  | node v h l r =>
    rw [true_balance, avl_balance_node, height_ok_true_height l hh.2.1,
      height_ok_true_height r hh.2.2]

theorem height_ok_of_mem_nodes (t : AVLTreeNode α) (hh : height_ok t) :
    ∀ n ∈ nodes t, height_ok n := by
  induction t with
  | nil => intro n hn; simp [nodes, nodes_at] at hn
  | node v h l r ihl ihr =>
    intro n hn
    rw [nodes_node, List.mem_append, List.mem_cons] at hn
    rcases hn with hn | rfl | hn
    · exact ihl hh.2.1 n hn
    · exact hh
    · exact ihr hh.2.2 n hn

theorem fib_le_size (t : AVLTreeNode α) (hh : height_ok t) (hb : balanced t) :
    Nat.fib (avl_height t + 2) ≤ (inorder t).length + 1 := by
  induction t with
  | nil => simp [avl_height_nil, inorder]
  | node v h l r ihl ihr =>
    obtain ⟨e, hl, hr⟩ := hh
    obtain ⟨b1, b2, bl, br⟩ := hb
    have il := ihl hl bl
    have ir := ihr hr br
    rw [avl_height_node, inorder, List.length_append, List.length_cons]
    by_cases c : avl_height r ≤ avl_height l
    · have e' : h + 2 = avl_height l + 1 + 2 := by omega
      rw [e', Nat.fib_add_two]
      have m : Nat.fib (avl_height l + 1) ≤ Nat.fib (avl_height r + 2) :=
        Nat.fib_mono (by omega)
      have il' : Nat.fib (avl_height l + 1 + 1) ≤ (inorder l).length + 1 := il
      omega
    · have e' : h + 2 = avl_height r + 1 + 2 := by omega
      rw [e', Nat.fib_add_two]
      have m : Nat.fib (avl_height r + 1) ≤ Nat.fib (avl_height l + 2) :=
        Nat.fib_mono (by omega)
      have ir' : Nat.fib (avl_height r + 1 + 1) ≤ (inorder r).length + 1 := ir
      omega

theorem two_pow_le_fib_sq : ∀ h : Nat, 2 ^ h ≤ Nat.fib (h + 2) ^ 2
  | 0 => by decide
  | 1 => by decide
  | h + 2 => by
    have ih := two_pow_le_fib_sq h
    have e : Nat.fib (h + 2 + 2) = Nat.fib (h + 2) + Nat.fib (h + 3) := Nat.fib_add_two
    have m : Nat.fib (h + 2) ≤ Nat.fib (h + 3) := Nat.fib_mono (by omega)
    have k : 2 * Nat.fib (h + 2) ≤ Nat.fib (h + 2 + 2) := by omega
    calc 2 ^ (h + 2) = 2 ^ 2 * 2 ^ h := by ring
      _ ≤ 2 ^ 2 * Nat.fib (h + 2) ^ 2 := Nat.mul_le_mul_left _ ih
      _ = (2 * Nat.fib (h + 2)) ^ 2 := by ring
      _ ≤ Nat.fib (h + 2 + 2) ^ 2 := Nat.pow_le_pow_left k 2

theorem pow_bound_logb (h n : Nat) (k : 2 ^ h ≤ (n + 1) ^ 2) :
    (h : ℝ) ≤ 2 * Real.logb 2 ((n : ℝ) + 1) := by
  have h1 : ((2 : ℝ) ^ h) ≤ ((n : ℝ) + 1) ^ 2 := by exact_mod_cast k
  have h2 : Real.logb 2 ((2 : ℝ) ^ h) ≤ Real.logb 2 (((n : ℝ) + 1) ^ 2) :=
    Real.logb_le_logb_of_le (by norm_num) (by positivity) h1
  rw [Real.logb_pow, Real.logb_self_eq_one (by norm_num), mul_one] at h2
  have h3 : Real.logb 2 (((n : ℝ) + 1) ^ 2) = 2 * Real.logb 2 ((n : ℝ) + 1) := by
    rw [Real.logb_pow]; norm_num
  rw [h3] at h2
  exact h2

theorem height_log_bound (t : AVLTreeNode α) (hh : height_ok t) (hb : balanced t) :
    2 ^ avl_height t ≤ ((inorder t).length + 1) ^ 2 :=
  le_trans (two_pow_le_fib_sq _) (Nat.pow_le_pow_left (fib_le_size t hh hb) 2)

variable [LinearOrder α]

theorem bst_iff_ordered (t : AVLTreeNode α) : bst t ↔ ordered t := by
  induction t with
  | nil => simp [bst, ordered_nil]
  | node v h l r ihl ihr =>
    rw [ordered_node, bst, ihl, ihr]
    tauto

end Nodes

section RemoveNode

variable {α : Type}

variable [LinearOrder α]

theorem avl_remove_found (v : α) (h : Nat) (l r : AVLTreeNode α) (x : α) (s : Nat)
    (c1 : ¬ x < v) (c2 : ¬ x > v) :
    avl_remove (.node v h l r) x s =
      match avl_remove_node (.node v h l r) with
      | none => none
      | some node1 => (avl_remove_rebalance node1).map fun n => (n, s - 1) := by
  cases l with
  | nil =>
    cases r with
    | nil => rw [avl_remove_leaf _ _ _ _ c1 c2]; rfl
    | node rv rh rl rr => rw [avl_remove_only_right _ _ _ _ _ _ _ _ c1 c2]; rfl
  | node lv lh ll lr =>
    cases r with
    | nil => rw [avl_remove_only_left _ _ _ _ _ _ _ _ c1 c2]; rfl
    | node rv rh rl rr =>
      rw [avl_remove_two _ _ _ _ _ _ _ _ _ _ _ _ c1 c2]
      simp only [avl_remove_node, avl_successor]
      cases avl_remove (.node rv rh rl rr) (avl_successor_val rv rl) 0 with
      | none => rfl
      | some p => rfl

end RemoveNode

section Sequences

variable {α : Type}

theorem inorder_eq_nil (t : AVLTreeNode α) (h : inorder t = []) : t = .nil := by
  cases t with
  | nil => rfl
  | node v hh l r => simp [inorder_node] at h

variable [LinearOrder α]

theorem applyAll_append (ops1 ops2 : List (Op α)) :
    ∀ t : AVLTree α, AVLTree.applyAll t (ops1 ++ ops2) =
      match AVLTree.applyAll t ops1 with
      | none => none
      | some t1 => AVLTree.applyAll t1 ops2 := by
  induction ops1 with
  | nil => intro t; rfl
  | cons op ops ih =>
    intro t
    rw [List.cons_append, AVLTree.applyAll, AVLTree.applyAll]
    cases t.apply op with
    | none => rfl
    | some t1 => exact ih t1

theorem insert_all_valid (vs : List α) :
    ∀ t : AVLTree α, t.valid →
      ∃ t1, AVLTree.applyAll t (vs.map Op.insert) = some t1 ∧ t1.valid ∧
        ∀ y, y ∈ inorder t1.root ↔ y ∈ vs ∨ y ∈ inorder t.root := by
  induction vs with
  | nil => intro t hv; exact ⟨t, rfl, hv, fun y => by simp⟩
  | cons v vs ih =>
    intro t hv
    obtain ⟨t1, e1, hv1, hm1⟩ := AVLTree.insert_valid t hv v
    obtain ⟨t2, e2, hv2, hm2⟩ := ih t1 hv1
    refine ⟨t2, ?_, hv2, ?_⟩
    · rw [List.map_cons, AVLTree.applyAll]
      show (match t.insert v with | none => none | some t1 => AVLTree.applyAll t1 _) = _
      rw [e1]
      exact e2
    · intro y
      rw [hm2, hm1, List.mem_cons]
      tauto

theorem remove_all_valid (ws : List α) :
    ∀ t : AVLTree α, t.valid →
      ∃ t1, AVLTree.applyAll t (ws.map Op.remove) = some t1 ∧ t1.valid ∧
        ∀ y, y ∈ inorder t1.root ↔ y ∈ inorder t.root ∧ y ∉ ws := by
  induction ws with
  | nil => intro t hv; exact ⟨t, rfl, hv, fun y => by simp⟩
  | cons w ws ih =>
    intro t hv
    obtain ⟨t1, e1, hv1, hi1⟩ := AVLTree.remove_valid t hv w
    obtain ⟨t2, e2, hv2, hm2⟩ := ih t1 hv1
    have hnd : (inorder t.root).Nodup :=
      (show (inorder t.root).Pairwise (· < ·) from hv.1).imp ne_of_lt
    refine ⟨t2, ?_, hv2, ?_⟩
    · rw [List.map_cons, AVLTree.applyAll]
      show (match t.remove w with | none => none | some t1 => AVLTree.applyAll t1 _) = _
      rw [e1]
      exact e2
    · intro y
      rw [hm2, hi1, List.Nodup.mem_erase_iff hnd, List.mem_cons]
      tauto

end Sequences

section Selection

variable {α : Type}

theorem run_some_nodes_exist (rot : Rotation) (z z1 : AVLTreeNode α)
    (e : rot.run z = some z1) : rot.nodes_exist z = true := by
  cases rot
  · have e' : avl_rebalance_left_left z = some z1 := e
    unfold avl_rebalance_left_left at e'
    split at e'
    · rfl
    · cases e'
  · have e' : avl_rebalance_left_right z = some z1 := e
    unfold avl_rebalance_left_right at e'
    split at e'
    · rfl
    · cases e'
  · have e' : avl_rebalance_right_right z = some z1 := e
    unfold avl_rebalance_right_right at e'
    split at e'
    · rfl
    · cases e'
  · have e' : avl_rebalance_right_left z = some z1 := e
    unfold avl_rebalance_right_left at e'
    split at e'
    · rfl
    · cases e'

theorem nodes_exist_height (rot : Rotation) (v : α) (h h1 : Nat) (l r : AVLTreeNode α) :
    rot.nodes_exist (.node v h l r) = rot.nodes_exist (.node v h1 l r) := by
  cases rot <;> rfl

theorem remove_rebalance_select (v : α) (h : Nat) (l r : AVLTreeNode α) :
    avl_remove_rebalance (.node v h l r) =
      match avl_remove_select (.node v h l r) with
      | none => some (.node v (1 + max (avl_height l) (avl_height r)) l r)
      | some rot => rot.run (.node v (1 + max (avl_height l) (avl_height r)) l r) := by
  unfold avl_remove_rebalance avl_remove_select
  simp only []
  split_ifs <;> rfl

theorem remove_select_nodes_exist (z z1 : AVLTreeNode α) (rot : Rotation)
    (e : avl_remove_rebalance z = some z1) (hs : avl_remove_select z = some rot) :
    rot.nodes_exist z = true := by
  cases z with
  | nil => cases hs
  | node v h l r =>
    rw [remove_rebalance_select, hs] at e
    rw [nodes_exist_height rot v h (1 + max (avl_height l) (avl_height r))]
    exact run_some_nodes_exist rot _ _ e

theorem balanced_of_mem_nodes (t : AVLTreeNode α) (hb : balanced t) :
    ∀ n ∈ nodes t, balanced n := by
  induction t with
  | nil => intro n hn; simp [nodes, nodes_at] at hn
  | node v h l r ihl ihr =>
    intro n hn
    rw [nodes_node, List.mem_append, List.mem_cons] at hn
    rcases hn with hn | rfl | hn
    · exact ihl hb.2.2.1 n hn
    · exact hb
    · exact ihr hb.2.2.2 n hn

variable [LinearOrder α]

theorem insert_rebalance_select (v : α) (h : Nat) (l r : AVLTreeNode α) (val : α) :
    avl_insert_rebalance (.node v h l r) val =
      match avl_insert_select (.node v h l r) val with
      | none => some (.node v (1 + max (avl_height l) (avl_height r)) l r)
      | some rot => rot.run (.node v (1 + max (avl_height l) (avl_height r)) l r) := by
  unfold avl_insert_rebalance avl_insert_select
  simp only []
  by_cases c1 : ((avl_height l : Int) - (avl_height r : Int)) > 1
  · rw [if_pos c1, if_pos c1]
    cases l with
    | nil => simp only [avl_height_nil] at c1; omega
    | node lv lh ll lr =>
      simp only []
      split_ifs <;> rfl
  · rw [if_neg c1, if_neg c1]
    by_cases c2 : ((avl_height l : Int) - (avl_height r : Int)) < -1
    · rw [if_pos c2, if_pos c2]
      cases r with
      | nil => simp only [avl_height_nil] at c2; omega
      | node rv rh rl rr =>
        simp only []
        split_ifs <;> rfl
    · rw [if_neg c2, if_neg c2]

theorem insert_select_nodes_exist (z z1 : AVLTreeNode α) (val : α) (rot : Rotation)
    (e : avl_insert_rebalance z val = some z1) (hs : avl_insert_select z val = some rot) :
    rot.nodes_exist z = true := by
  cases z with
  | nil => cases hs
  | node v h l r =>
    rw [insert_rebalance_select, hs] at e
    rw [nodes_exist_height rot v h (1 + max (avl_height l) (avl_height r))]
    exact run_some_nodes_exist rot _ _ e

theorem insert_select_isSome (v : α) (h : Nat) (l r : AVLTreeNode α) (val : α) :
    (avl_insert_select (.node v h l r) val).isSome = true ↔
      ¬ (avl_height l ≤ avl_height r + 1 ∧ avl_height r ≤ avl_height l + 1) := by
  unfold avl_insert_select
  simp only []
  by_cases c1 : ((avl_height l : Int) - (avl_height r : Int)) > 1
  · rw [if_pos c1]
    cases l with
    | nil => simp only [avl_height_nil] at c1; omega
    | node lv lh ll lr =>
      simp only []
      split_ifs <;> simp only [Option.isSome_some, true_iff] <;> omega
  · rw [if_neg c1]
    by_cases c2 : ((avl_height l : Int) - (avl_height r : Int)) < -1
    · rw [if_pos c2]
      cases r with
      | nil => simp only [avl_height_nil] at c2; omega
      | node rv rh rl rr =>
        simp only []
        split_ifs <;> simp only [Option.isSome_some, true_iff] <;> omega
    · rw [if_neg c2]
      simp only [Option.isSome_none, Bool.false_eq_true, false_iff, not_not]
      omega

theorem avl_insert_counted_erase (t : AVLTreeNode α) (val : α) (s : Nat) :
    (avl_insert_counted t val s).map (fun p => (p.1, p.2.1)) = avl_insert t val s := by
  induction t with
  | nil => rfl
  | node v h l r ihl ihr =>
    by_cases c1 : val < v
    · rw [avl_insert_counted, avl_insert, if_pos c1, if_pos c1, ← ihl]
      cases avl_insert_counted l val s with
      | none => rfl
      | some p =>
        obtain ⟨l1, s1, k⟩ := p
        simp only [Option.map_some']
        cases avl_insert_rebalance (.node v h l1 r) val with
        | none => rfl
        | some n => rfl
    · by_cases c2 : val > v
      · rw [avl_insert_counted, avl_insert, if_neg c1, if_neg c1, if_pos c2, if_pos c2, ← ihr]
        cases avl_insert_counted r val s with
        | none => rfl
        | some p =>
          obtain ⟨r1, s1, k⟩ := p
          simp only [Option.map_some']
          cases avl_insert_rebalance (.node v h l r1) val with
          | none => rfl
          | some n => rfl
      · rw [avl_insert_counted, avl_insert, if_neg c1, if_neg c1, if_neg c2, if_neg c2]
        rfl

theorem avl_insert_counted_spec (t : AVLTreeNode α) (x : α) (s : Nat)
    (hh : height_ok t) (hb : balanced t) :
    ∃ t1 s1 k, avl_insert_counted t x s = some (t1, s1, k) ∧
      avl_insert t x s = some (t1, s1) ∧ k ≤ 1 ∧
      (k = 1 → avl_height t1 = avl_height t) := by
  induction t with
  | nil => exact ⟨AVLTreeNode.leaf x, s + 1, 0, rfl, rfl, by omega, by omega⟩
  | node v h l r ihl ihr =>
    obtain ⟨e, hl, hr⟩ := hh
    obtain ⟨b1, b2, bl, br⟩ := hb
    by_cases c1 : x < v
    · obtain ⟨l1, s1, k1, ec, ei, hk, hkh⟩ := ihl hl bl
      obtain ⟨l1', s1', e1, hl1, bl1, g⟩ := avl_insert_shape l x s hl bl
      rw [ei] at e1
      cases e1
      have g' : avl_height l1 = avl_height l ∨ avl_height l1 = avl_height l + 1 := by
        rcases g with g | ⟨g, -⟩
        · exact Or.inl g
        · exact Or.inr g
      obtain ⟨n, en, hn, bn, g2⟩ := insert_rebalance_shape v h l1 r x hl1 bl1 hr br
        (by omega) (by omega) (fun k => by rcases g with g | ⟨g, lz⟩; · omega
                                           · exact lz)
        (fun k => by omega)
      clear g
      have hsel := insert_select_isSome v h l1 r x
      by_cases cs : (avl_insert_select (.node v h l1 r) x).isSome = true
      · refine ⟨n, s1, k1 + 1, ?_, ?_, ?_, ?_⟩
        · rw [avl_insert_counted, if_pos c1, ec]
          simp only [en, Option.map_some', cs, if_true]
        · rw [avl_insert, if_pos c1, ei]
          simp only [en, Option.map_some']
        · have := hsel.1 cs
          by_cases hk1 : k1 = 1
          · have := hkh hk1; omega
          · omega
        · intro _
          have hnb := hsel.1 cs
          rcases g2 with ⟨q1, q2, -⟩ | ⟨k, ek⟩
          · exact absurd ⟨q1, q2⟩ hnb
          · rw [avl_height_node]; omega
      · refine ⟨n, s1, k1, ?_, ?_, hk, ?_⟩
        · rw [avl_insert_counted, if_pos c1, ec]
          simp only [en, Option.map_some', cs, Bool.false_eq_true, if_false, Nat.add_zero]
        · rw [avl_insert, if_pos c1, ei]
          simp only [en, Option.map_some']
        · intro hk1
          have := hkh hk1
          have hnb : avl_height l1 ≤ avl_height r + 1 ∧ avl_height r ≤ avl_height l1 + 1 :=
            not_not.1 (fun hc => cs (hsel.2 hc))
          rcases g2 with ⟨q1, q2, rfl⟩ | ⟨k, ek⟩
          · simp only [avl_height_node]; omega
          · omega
    · by_cases c2 : x > v
      · obtain ⟨r1, s1, k1, ec, ei, hk, hkh⟩ := ihr hr br
        obtain ⟨r1', s1', e1, hr1, br1, g⟩ := avl_insert_shape r x s hr br
        rw [ei] at e1
        cases e1
        have g' : avl_height r1 = avl_height r ∨ avl_height r1 = avl_height r + 1 := by
          rcases g with g | ⟨g, -⟩
          · exact Or.inl g
          · exact Or.inr g
        obtain ⟨n, en, hn, bn, g2⟩ := insert_rebalance_shape v h l r1 x hl bl hr1 br1
          (by omega) (by omega) (fun k => by omega)
          (fun k => by rcases g with g | ⟨g, lz⟩; · omega
                       · exact lz)
        clear g
        have hsel := insert_select_isSome v h l r1 x
        by_cases cs : (avl_insert_select (.node v h l r1) x).isSome = true
        · refine ⟨n, s1, k1 + 1, ?_, ?_, ?_, ?_⟩
          · rw [avl_insert_counted, if_neg c1, if_pos c2, ec]
            simp only [en, Option.map_some', cs, if_true]
          · rw [avl_insert, if_neg c1, if_pos c2, ei]
            simp only [en, Option.map_some']
          · have := hsel.1 cs
            by_cases hk1 : k1 = 1
            · have := hkh hk1; omega
            · omega
          · intro _
            have hnb := hsel.1 cs
            rcases g2 with ⟨q1, q2, -⟩ | ⟨k, ek⟩
            · exact absurd ⟨q1, q2⟩ hnb
            · rw [avl_height_node]; omega
        · refine ⟨n, s1, k1, ?_, ?_, hk, ?_⟩
          · rw [avl_insert_counted, if_neg c1, if_pos c2, ec]
            simp only [en, Option.map_some', cs, Bool.false_eq_true, if_false, Nat.add_zero]
          · rw [avl_insert, if_neg c1, if_pos c2, ei]
            simp only [en, Option.map_some']
          · intro hk1
            have := hkh hk1
            have hnb : avl_height l ≤ avl_height r1 + 1 ∧ avl_height r1 ≤ avl_height l + 1 :=
              not_not.1 (fun hc => cs (hsel.2 hc))
            rcases g2 with ⟨q1, q2, rfl⟩ | ⟨k, ek⟩
            · simp only [avl_height_node]; omega
            · omega
      · refine ⟨.node v h l r, s, 0, ?_, ?_, by omega, fun _ => rfl⟩
        · rw [avl_insert_counted, if_neg c1, if_neg c2]
        · rw [avl_insert, if_neg c1, if_neg c2]

theorem insert_site_left (v : α) (h : Nat) (l r : AVLTreeNode α) (val : α) (s : Nat)
    (hh : height_ok (.node v h l r)) (hb : balanced (.node v h l r))
    (l1 : AVLTreeNode α) (s1 : Nat) (ei : avl_insert l val s = some (l1, s1)) :
    ∃ z, avl_insert_rebalance (.node v h l1 r) val = some z ∧
      avl_remove_rebalance (.node v h l1 r) = some z ∧
      ((avl_insert_select (.node v h l1 r) val).isSome = true → avl_height z = h) ∧
      ((avl_height l1 : Int) - (avl_height r : Int) > 1 →
        ∃ lv lh ll lr, l1 = .node lv lh ll lr ∧ (val < lv ↔ avl_balance l1 ≥ 0)) ∧
      ¬ ((avl_height l1 : Int) - (avl_height r : Int) < -1) := by
  obtain ⟨e, hl, hr⟩ := hh
  obtain ⟨b1, b2, bl, br⟩ := hb
  obtain ⟨l1', s1', e1, hl1, bl1, g⟩ := avl_insert_shape l val s hl bl
  rw [ei] at e1
  cases e1
  have g' : avl_height l1 = avl_height l ∨ avl_height l1 = avl_height l + 1 := by
    rcases g with g | ⟨g, -⟩
    · exact Or.inl g
    · exact Or.inr g
  have hlean : avl_height l1 = avl_height r + 2 → leans val l1 := fun k => by
    rcases g with g | ⟨g, lz⟩
    · omega
    · exact lz
  clear g
  obtain ⟨n, en, hn, bn, g2⟩ := insert_rebalance_shape v h l1 r val hl1 bl1 hr br
    (by omega) (by omega) hlean (fun k => by omega)
  have hsel := insert_select_isSome v h l1 r val
  have hiff : (avl_height l1 : Int) - (avl_height r : Int) > 1 →
      ∃ lv lh ll lr, l1 = .node lv lh ll lr ∧ (val < lv ↔ avl_balance l1 ≥ 0) := by
    intro c
    have hz := hlean (by omega)
    cases l1 with
    | nil => exact absurd hz (by simp [leans])
    | node lv lh ll lr =>
      refine ⟨lv, lh, ll, lr, rfl, ?_⟩
      rw [leans_node] at hz
      rw [avl_balance_node]
      simp only [avl_height_node] at c
      rcases hz with h1 | ⟨hx, hq⟩ | ⟨hx, hq⟩
      · omega
      · exact ⟨fun _ => by omega, fun _ => hx⟩
      · exact ⟨fun hc => absurd hc (not_lt_of_gt hx), fun hc => by omega⟩
  refine ⟨n, en, ?_, ?_, hiff, by omega⟩
  · rw [← en, remove_rebalance_select, insert_rebalance_select]
    unfold avl_remove_select avl_insert_select
    simp only []
    by_cases c1 : ((avl_height l1 : Int) - (avl_height r : Int)) > 1
    · obtain ⟨lv, lh, ll, lr, rfl, hi⟩ := hiff c1
      rw [if_pos c1, if_pos c1]
      simp only []
      by_cases cx : val < lv
      · rw [if_pos cx, if_pos (hi.1 cx)]
      · rw [if_neg cx, if_neg (fun hc => cx (hi.2 hc))]
    · rw [if_neg c1, if_neg c1, if_neg (by omega), if_neg (by omega)]
  · intro cs
    have hnb := hsel.1 cs
    rcases g2 with ⟨q1, q2, -⟩ | ⟨k, ek⟩
    · exact absurd ⟨q1, q2⟩ hnb
    · omega

theorem insert_site_right (v : α) (h : Nat) (l r : AVLTreeNode α) (val : α) (s : Nat)
    (hh : height_ok (.node v h l r)) (hb : balanced (.node v h l r))
    (r1 : AVLTreeNode α) (s1 : Nat) (ei : avl_insert r val s = some (r1, s1)) :
    ∃ z, avl_insert_rebalance (.node v h l r1) val = some z ∧
      avl_remove_rebalance (.node v h l r1) = some z ∧
      ((avl_insert_select (.node v h l r1) val).isSome = true → avl_height z = h) ∧
      ((avl_height l : Int) - (avl_height r1 : Int) < -1 →
        ∃ rv rh rl rr, r1 = .node rv rh rl rr ∧ (val > rv ↔ avl_balance r1 ≤ 0)) ∧
      ¬ ((avl_height l : Int) - (avl_height r1 : Int) > 1) := by
  obtain ⟨e, hl, hr⟩ := hh
  obtain ⟨b1, b2, bl, br⟩ := hb
  obtain ⟨r1', s1', e1, hr1, br1, g⟩ := avl_insert_shape r val s hr br
  rw [ei] at e1
  cases e1
  have g' : avl_height r1 = avl_height r ∨ avl_height r1 = avl_height r + 1 := by
    rcases g with g | ⟨g, -⟩
    · exact Or.inl g
    · exact Or.inr g
  have hlean : avl_height r1 = avl_height l + 2 → leans val r1 := fun k => by
    rcases g with g | ⟨g, lz⟩
    · omega
    · exact lz
  clear g
  obtain ⟨n, en, hn, bn, g2⟩ := insert_rebalance_shape v h l r1 val hl bl hr1 br1
    (by omega) (by omega) (fun k => by omega) hlean
  have hsel := insert_select_isSome v h l r1 val
  have hiff : (avl_height l : Int) - (avl_height r1 : Int) < -1 →
      ∃ rv rh rl rr, r1 = .node rv rh rl rr ∧ (val > rv ↔ avl_balance r1 ≤ 0) := by
    intro c
    have hz := hlean (by omega)
    cases r1 with
    | nil => exact absurd hz (by simp [leans])
    | node rv rh rl rr =>
      refine ⟨rv, rh, rl, rr, rfl, ?_⟩
      rw [leans_node] at hz
      rw [avl_balance_node]
      simp only [avl_height_node] at c
      rcases hz with h1 | ⟨hx, hq⟩ | ⟨hx, hq⟩
      · omega
      · exact ⟨fun hc => absurd hc (not_lt_of_gt hx), fun hc => by omega⟩
      · exact ⟨fun _ => by omega, fun _ => hx⟩
  refine ⟨n, en, ?_, ?_, hiff, by omega⟩
  · rw [← en, remove_rebalance_select, insert_rebalance_select]
    unfold avl_remove_select avl_insert_select
    simp only []
    have c1 : ¬ ((avl_height l : Int) - (avl_height r1 : Int)) > 1 := by omega
    rw [if_neg c1, if_neg c1]
    by_cases c2 : ((avl_height l : Int) - (avl_height r1 : Int)) < -1
    · obtain ⟨rv, rh, rl, rr, rfl, hi⟩ := hiff c2
      rw [if_pos c2, if_pos c2]
      simp only []
      by_cases cx : val > rv
      · rw [if_pos cx, if_pos (hi.1 cx)]
      · rw [if_neg cx, if_neg (fun hc => cx (hi.2 hc))]
    · rw [if_neg c2, if_neg c2]
  · intro cs
    have hnb := hsel.1 cs
    rcases g2 with ⟨q1, q2, -⟩ | ⟨k, ek⟩
    · exact absurd ⟨q1, q2⟩ hnb
    · omega

theorem avl_insert_remove_rule_eq (t : AVLTreeNode α) (val : α) (s : Nat)
    (hh : height_ok t) (hb : balanced t) :
    avl_insert_remove_rule t val s = avl_insert t val s := by
  induction t with
  | nil => rfl
  | node v h l r ihl ihr =>
    by_cases c1 : val < v
    · rw [avl_insert_remove_rule, avl_insert, if_pos c1, if_pos c1, ihl hh.2.1 hb.2.2.1]
      cases ei : avl_insert l val s with
      | none => rfl
      | some p =>
        obtain ⟨l1, s1⟩ := p
        obtain ⟨z, e1, e2, -⟩ := insert_site_left v h l r val s hh hb l1 s1 ei
        simp only [e1, e2]
    · by_cases c2 : val > v
      · rw [avl_insert_remove_rule, avl_insert, if_neg c1, if_neg c1, if_pos c2, if_pos c2,
          ihr hh.2.2 hb.2.2.2]
        cases ei : avl_insert r val s with
        | none => rfl
        | some p =>
          obtain ⟨r1, s1⟩ := p
          obtain ⟨z, e1, e2, -⟩ := insert_site_right v h l r val s hh hb r1 s1 ei
          simp only [e1, e2]
      · rw [avl_insert_remove_rule, avl_insert, if_neg c1, if_neg c1, if_neg c2, if_neg c2]

theorem remove_node_rebalance (n n1 : AVLTreeNode α) (hh : height_ok n) (hb : balanced n)
    (e : avl_remove_node n = some n1) : ∃ z, avl_remove_rebalance n1 = some z := by
  cases n with
  | nil => cases e
  | node v h l r =>
    obtain ⟨eh, hl, hr⟩ := hh
    obtain ⟨b1, b2, bl, br⟩ := hb
    cases l with
    | nil =>
      cases r with
      | nil => cases e; exact ⟨.nil, rfl⟩
      | node rv rh rl rr => cases e; exact ⟨_, remove_rebalance_id _ hr br⟩
    | node lv lh ll lr =>
      cases r with
      | nil => cases e; exact ⟨_, remove_rebalance_id _ hl bl⟩
      | node rv rh rl rr =>
        obtain ⟨r1, s1, e1, hr1, br1, g⟩ :=
          avl_remove_shape (.node rv rh rl rr) hr br (avl_successor_val rv rl) 0
        simp only [avl_remove_node, avl_successor, e1] at e
        cases e
        obtain ⟨z, ez, -⟩ := remove_rebalance_shape (avl_successor_val rv rl) h
          (.node lv lh ll lr) r1 hl bl hr1 br1 (by omega) (by omega)
        exact ⟨z, ez⟩

theorem remove_site_left (v : α) (h : Nat) (l r : AVLTreeNode α) (val : α) (s : Nat)
    (hh : height_ok (.node v h l r)) (hb : balanced (.node v h l r))
    (l1 : AVLTreeNode α) (s1 : Nat) (ei : avl_remove l val s = some (l1, s1)) :
    ∃ z, avl_remove_rebalance (.node v h l1 r) = some z := by
  obtain ⟨e, hl, hr⟩ := hh
  obtain ⟨b1, b2, bl, br⟩ := hb
  obtain ⟨l1', s1', e1, hl1, bl1, g⟩ := avl_remove_shape l hl bl val s
  rw [ei] at e1
  cases e1
  obtain ⟨z, ez, -⟩ := remove_rebalance_shape v h l1 r hl1 bl1 hr br (by omega) (by omega)
  exact ⟨z, ez⟩

theorem remove_site_right (v : α) (h : Nat) (l r : AVLTreeNode α) (val : α) (s : Nat)
    (hh : height_ok (.node v h l r)) (hb : balanced (.node v h l r))
    (r1 : AVLTreeNode α) (s1 : Nat) (ei : avl_remove r val s = some (r1, s1)) :
    ∃ z, avl_remove_rebalance (.node v h l r1) = some z := by
  obtain ⟨e, hl, hr⟩ := hh
  obtain ⟨b1, b2, bl, br⟩ := hb
  obtain ⟨r1', s1', e1, hr1, br1, g⟩ := avl_remove_shape r hr br val s
  rw [ei] at e1
  cases e1
  obtain ⟨z, ez, -⟩ := remove_rebalance_shape v h l r1 hl bl hr1 br1 (by omega) (by omega)
  exact ⟨z, ez⟩

end Selection

section InsertOrder

variable {α : Type} [LinearOrder α]

theorem avl_insert_ordered (t : AVLTreeNode α) (x : α) (s : Nat) (ho : ordered t)
    (t1 : AVLTreeNode α) (s1 : Nat) (e : avl_insert t x s = some (t1, s1)) :
    ordered t1 := by
  rcases avl_insert_inorder t x ho s t1 s1 e with
    ⟨-, hi, -⟩ | ⟨ys, zs, h1, h2, h3, h4, -⟩
  · show (inorder t1).Pairwise (· < ·)
    rw [hi]; exact ho
  · show (inorder t1).Pairwise (· < ·)
    rw [h2]
    exact pairwise_insert_mid x ys zs (h1 ▸ ho) h3 h4

end InsertOrder

section InsertFrame

variable {α : Type} [LinearOrder α]

theorem orderedInsert_mid (x : α) (ys zs : List α)
    (h1 : ∀ y ∈ ys, y < x) (h2 : ∀ z ∈ zs, x < z) :
    List.orderedInsert (· ≤ ·) x (ys ++ zs) = ys ++ x :: zs := by
  induction ys with
  | nil =>
    cases zs with
    | nil => rfl
    | cons z zs =>
      rw [List.nil_append, List.orderedInsert, if_pos (le_of_lt (h2 z (List.mem_cons_self _ _)))]
      rfl
  | cons y ys ih =>
    have hy : ¬ x ≤ y := not_le.2 (h1 y (List.mem_cons_self _ _))
    rw [List.cons_append, List.orderedInsert, if_neg hy,
      ih (fun a ha => h1 a (List.mem_cons_of_mem _ ha))]
    rfl

theorem AVLTree.insert_eq (t t1 : AVLTree α) (x : α) (e : t.insert x = some t1) :
    avl_insert t.root x t.size = some (t1.root, t1.size) := by
  unfold AVLTree.insert at e
  cases h : avl_insert t.root x t.size with
  | none => rw [h] at e; cases e
  | some p =>
    rw [h] at e
    cases e
    rfl

end InsertFrame

section Claims

variable {α : Type} [LinearOrder α]

/-- C1, balance invariant: every finite sequence of insert and remove calls run
from the empty tree succeeds, and in the tree it reaches every node has
`|height(left) - height(right)| ≤ 1`, the height of an absent child being 0;
this holds for the stored heights and for the true heights of the children. -/
theorem balance_invariant (ops : List (Op α)) :
    ∃ t, AVLTree.run ops = some t ∧
      ∀ n ∈ nodes t.root, |avl_balance n| ≤ 1 ∧ |true_balance n| ≤ 1 := by
  obtain ⟨t, e, -, hh, hb, -⟩ := AVLTree.run_valid ops
  refine ⟨t, e, fun n hn => ?_⟩
  have hn1 := (balanced_iff_nodes t.root).1 hb n hn
  exact ⟨hn1, by rw [true_balance_eq n (height_ok_of_mem_nodes t.root hh n hn)]; exact hn1⟩

/-- C2, order invariant: in every tree reached from the empty tree by insert and
remove calls the in-order traversal yields a strictly ascending sequence of
values, and every value in the left subtree of a node is less than the value of
the node and every value in its right subtree is greater; the two
formulations are equivalent on every tree. -/
theorem order_invariant (ops : List (Op α)) :
    ∃ t, AVLTree.run ops = some t ∧
      ((traverse t.root).map Prod.fst).Pairwise (· < ·) ∧ bst t.root ∧
      ∀ u : AVLTreeNode α,
        ((traverse u).map Prod.fst).Pairwise (· < ·) ↔ bst u := by
  obtain ⟨t, e, ho, -, -, -⟩ := AVLTree.run_valid ops
  refine ⟨t, e, ?_, (bst_iff_ordered t.root).2 ho, ?_⟩
  · rw [traverse_values]; exact ho
  · intro u
    rw [traverse_values]
    exact (bst_iff_ordered u).symm

/-- C3, height invariant: in every tree reached from the empty tree by insert
and remove calls every node stores 1 + max(height(left), height(right)), with
height 0 for an absent child; a childless node stores 1 and every stored
height is the true height of the subtree. -/
theorem height_invariant (ops : List (Op α)) :
    ∃ t, AVLTree.run ops = some t ∧
      ∀ n ∈ nodes t.root,
        node_height_ok n ∧ avl_height n = true_height n ∧
          ∀ v h, n = .node v h .nil .nil → h = 1 := by
  obtain ⟨t, e, -, hh, -, -⟩ := AVLTree.run_valid ops
  refine ⟨t, e, fun n hn => ⟨(height_ok_iff_nodes t.root).1 hh n hn,
    height_ok_true_height n (height_ok_of_mem_nodes t.root hh n hn), ?_⟩⟩
  intro v h hv
  have := (height_ok_iff_nodes t.root).1 hh n hn
  rw [hv] at this
  exact this

/-- C4, size invariant: in every tree reached from the empty tree by insert and
remove calls the size counter equals the number of nodes visited by the
in-order traversal from the root (0 when the root is absent). -/
theorem size_invariant (ops : List (Op α)) :
    ∃ t, AVLTree.run ops = some t ∧ t.size = visited_count t.root ∧
      (t.root = .nil → t.size = 0) := by
  obtain ⟨t, e, -, -, -, hs⟩ := AVLTree.run_valid ops
  refine ⟨t, e, by rw [visited_count_eq]; exact hs, ?_⟩
  intro h0
  rw [hs, h0]
  rfl

/-- C5, post-remove absence: on a tree reached from the empty tree that contains
`x`, `remove(x)` succeeds, afterwards `has(x)` is false and `has(y)` is
unchanged for every `y` different from `x`.  (The conclusion does not depend
on `x` being present.) -/
theorem remove_absence (ops : List (Op α)) (t : AVLTree α) (x : α)
    (hrun : AVLTree.run ops = some t) (_hx : t.has x = true) :
    ∃ t1, t.remove x = some t1 ∧ t1.has x = false ∧
      ∀ y, y ≠ x → t1.has y = t.has y := by
  obtain ⟨t0, e0, hv⟩ := AVLTree.run_valid ops
  rw [hrun] at e0
  cases e0
  obtain ⟨t1, e1, hv1, hi⟩ := AVLTree.remove_valid t hv x
  have ho : (inorder t.root).Pairwise (· < ·) := hv.1
  have hnd : (inorder t.root).Nodup := ho.imp ne_of_lt
  refine ⟨t1, e1, ?_, ?_⟩
  · rw [← Bool.not_eq_true]
    unfold AVLTree.has
    rw [avl_has_iff t1.root hv1.1, hi]
    exact fun hm => (List.Nodup.mem_erase_iff hnd).1 hm |>.1 rfl
  · intro y hy
    unfold AVLTree.has
    rw [Bool.eq_iff_iff, avl_has_iff t1.root hv1.1, avl_has_iff t.root hv.1, hi]
    exact List.mem_erase_of_ne hy

/-- Witness of C5: the tree of scenario 5 contains 5; after `remove(5)` the call
`has(5)` is false and every other answer of `has` is unchanged. -/
theorem remove_absence_witness :
    (AVLTree.run example_ops = some example_tree ∧ example_tree.has 5 = true) ∧
      ∃ t1, example_tree.remove 5 = some t1 ∧ t1.has 5 = false ∧
        ∀ y, y ≠ 5 → t1.has y = example_tree.has y :=
  ⟨⟨by decide, by decide⟩,
    remove_absence example_ops example_tree 5 (by decide) (by decide)⟩

/-- C6, post-insert membership: on every tree reached from the empty tree and for
every value `x`, `insert(x)` succeeds and afterwards `has(x)` is true. -/
theorem insert_membership (ops : List (Op α)) (x : α) :
    ∃ t t1, AVLTree.run ops = some t ∧ t.insert x = some t1 ∧ t1.has x = true := by
  obtain ⟨t, e, hv⟩ := AVLTree.run_valid ops
  obtain ⟨t1, e1, hv1, hm⟩ := AVLTree.insert_valid t hv x
  refine ⟨t, t1, e, e1, ?_⟩
  unfold AVLTree.has
  rw [avl_has_iff t1.root hv1.1]
  exact (hm x).2 (Or.inl rfl)

/-- C7, membership test: on every tree that satisfies the order invariant,
`has(x)` is true exactly when `x` is one of the values produced by the in-order
traversal.  `has` takes the tree as a constant and returns only the answer,
so there is no tree after the call other than the tree before it. -/
theorem has_correct (t : AVLTree α) (x : α)
    (ho : ((traverse t.root).map Prod.fst).Pairwise (· < ·)) :
    t.has x = true ↔ x ∈ (traverse t.root).map Prod.fst := by
  rw [traverse_values] at ho ⊢
  exact avl_has_iff t.root ho x

/-- Witness of C7: on a degenerate ordered chain `has(3)` agrees with the
traversal. -/
theorem has_correct_witness :
    ((traverse chain_tree.root).map Prod.fst).Pairwise (· < ·) ∧
      (chain_tree.has 3 = true ↔ (3 : Int) ∈ (traverse chain_tree.root).map Prod.fst) :=
  ⟨by decide, has_correct chain_tree 3 (by decide)⟩

/-- C8, idempotence of insert: on a tree reached from the empty tree that
already contains `x`, `insert(x)` returns the tree it was given: same size,
shape, values and stored heights. -/
theorem insert_idempotent (ops : List (Op α)) (t : AVLTree α) (x : α)
    (hrun : AVLTree.run ops = some t) (hx : t.has x = true) :
    t.insert x = some t := by
  obtain ⟨t0, e0, hv⟩ := AVLTree.run_valid ops
  rw [hrun] at e0
  cases e0
  unfold AVLTree.insert
  rw [avl_insert_present t.root hv.2.1 hv.2.2.1 x t.size hx]
  rfl

/-- Witness of C8: inserting 4 again into the tree of scenario 5 returns the
same tree. -/
theorem insert_idempotent_witness :
    (AVLTree.run example_ops = some example_tree ∧ example_tree.has 4 = true) ∧
      example_tree.insert 4 = some example_tree :=
  ⟨⟨by decide, by decide⟩,
    insert_idempotent example_ops example_tree 4 (by decide) (by decide)⟩

/-- C9, no-op removal: on a tree reached from the empty tree that does not
contain `x`, `remove(x)` returns the tree it was given: same size, shape,
values and stored heights. -/
theorem remove_absent_noop (ops : List (Op α)) (t : AVLTree α) (x : α)
    (hrun : AVLTree.run ops = some t) (hx : t.has x = false) :
    t.remove x = some t := by
  obtain ⟨t0, e0, hv⟩ := AVLTree.run_valid ops
  rw [hrun] at e0
  cases e0
  unfold AVLTree.remove
  rw [avl_remove_absent t.root hv.2.1 hv.2.2.1 x t.size hx]
  rfl

/-- Witness of C9: removing the absent value 6 from the tree of scenario 5
returns the same tree. -/
theorem remove_absent_noop_witness :
    (AVLTree.run example_ops = some example_tree ∧ example_tree.has 6 = false) ∧
      example_tree.remove 6 = some example_tree :=
  ⟨⟨by decide, by decide⟩,
    remove_absent_noop example_ops example_tree 6 (by decide) (by decide)⟩

/-- C10, logarithmic height: in every tree reached from the empty tree, with
root height `h` (0 for the empty tree) and size `n`, `2^h ≤ (n + 1)^2`, that
is `h ≤ 2 * log2 (n + 1)`. -/
theorem height_logarithmic (ops : List (Op α)) :
    ∃ t, AVLTree.run ops = some t ∧ 2 ^ avl_height t.root ≤ (t.size + 1) ^ 2 ∧
      (avl_height t.root : ℝ) ≤ 2 * Real.logb 2 ((t.size : ℝ) + 1) := by
  obtain ⟨t, e, -, hh, hb, hs⟩ := AVLTree.run_valid ops
  have k : 2 ^ avl_height t.root ≤ (t.size + 1) ^ 2 := by
    rw [hs]
    exact height_log_bound t.root hh hb
  exact ⟨t, e, k, pow_bound_logb _ _ k⟩

/-- C11, all inserted values are found: after inserting the elements of any
finite list `vs` (duplicates allowed) one by one into the empty tree, every
insertion succeeds and `has(v)` is true for every `v` in `vs`. -/
theorem inserted_values_found (vs : List α) :
    ∃ t, AVLTree.run (vs.map Op.insert) = some t ∧ ∀ v ∈ vs, t.has v = true := by
  obtain ⟨t, e, hv, hm⟩ := insert_all_valid vs AVLTree.empty AVLTree.empty_valid
  refine ⟨t, e, fun v hvs => ?_⟩
  unfold AVLTree.has
  rw [avl_has_iff t.root hv.1]
  exact (hm v).2 (Or.inl hvs)

/-- C12, insert-all then remove-all round trip: for every finite list `vs`
(duplicates allowed) and every permutation `ws` of it, inserting all of `vs`
into the empty tree and then removing all of `ws` in order succeeds and ends
with the empty tree: root absent, empty traversal and size 0. -/
theorem insert_remove_round_trip (vs ws : List α) (hp : ws.Perm vs) :
    ∃ t, AVLTree.run (vs.map Op.insert ++ ws.map Op.remove) = some t ∧
      t.root = .nil ∧ traverse t.root = [] ∧ t.size = 0 := by
  obtain ⟨t1, e1, hv1, hm1⟩ := insert_all_valid vs AVLTree.empty AVLTree.empty_valid
  obtain ⟨t2, e2, hv2, hm2⟩ := remove_all_valid ws t1 hv1
  have hnil : inorder t2.root = [] := by
    apply List.eq_nil_iff_forall_not_mem.2
    intro y hy
    obtain ⟨h1, h2⟩ := (hm2 y).1 hy
    rcases (hm1 y).1 h1 with h | h
    · exact h2 (hp.mem_iff.2 h)
    · simp [AVLTree.empty, inorder_nil] at h
  have hroot : t2.root = .nil := inorder_eq_nil t2.root hnil
  refine ⟨t2, ?_, hroot, ?_, ?_⟩
  · unfold AVLTree.run
    rw [applyAll_append, e1]
    exact e2
  · rw [hroot]; rfl
  · rw [hv2.2.2.2, hnil]; rfl

/-- Witness of C12: the values 3, 1, 2, 1 inserted and then removed in the order
1, 2, 1, 3. -/
theorem insert_remove_round_trip_witness :
    List.Perm [1, 2, 1, 3] [(3 : Int), 1, 2, 1] ∧
      ∃ t, AVLTree.run (([3, 1, 2, 1] : List Int).map Op.insert ++
          ([1, 2, 1, 3] : List Int).map Op.remove) = some t ∧
        t.root = .nil ∧ traverse t.root = [] ∧ t.size = 0 :=
  ⟨by decide, insert_remove_round_trip [3, 1, 2, 1] [1, 2, 1, 3] (by decide)⟩

/-- C13, size decrements exactly once per removal: on a tree reached from the
empty tree that contains `x`, `remove(x)` succeeds and leaves the size exactly
one less than before, whatever the number of children of the node of `x`. -/
theorem remove_size (ops : List (Op α)) (t : AVLTree α) (x : α)
    (hrun : AVLTree.run ops = some t) (hx : t.has x = true) :
    ∃ t1, t.remove x = some t1 ∧ t1.size + 1 = t.size := by
  obtain ⟨t0, e0, hv⟩ := AVLTree.run_valid ops
  rw [hrun] at e0
  cases e0
  obtain ⟨t1, e1, hv1, hi⟩ := AVLTree.remove_valid t hv x
  have hmem : x ∈ inorder t.root := (avl_has_iff t.root hv.1 x).1 hx
  refine ⟨t1, e1, ?_⟩
  rw [hv1.2.2.2, hv.2.2.2, hi, List.length_erase_of_mem hmem]
  have := List.length_pos_of_mem hmem
  omega

/-- Witness of C13: 5 is the root of the tree of scenario 5 and has two
children, so its removal goes through the nested removal of the successor 7;
the size drops from 7 to 6. -/
theorem remove_size_witness :
    (AVLTree.run example_ops = some example_tree ∧ example_tree.has 5 = true) ∧
      ∃ t1, example_tree.remove 5 = some t1 ∧ t1.size + 1 = example_tree.size :=
  ⟨⟨by decide, by decide⟩, remove_size example_ops example_tree 5 (by decide) (by decide)⟩

/-- C14, three-key scenarios: for all values `a < b < c` and each of the six
orders in which they can be inserted into the empty tree, the insertions
succeed and the result has root `b` with stored height 2, left child `a` and
right child `c`, both with stored height 1 and no children, and size 3.  In the
order c, b, a the unwind at the root selects Left-Left, in a, b, c Right-Right,
in c, a, b Left-Right and in a, c, b Right-Left: each time the tree after two
insertions, the result of the third insertion into its child, and the rotation
selected at the root. -/
theorem three_keys (a b c : α) (hab : a < b) (hbc : b < c) :
    (∀ vs ∈ [[a, b, c], [a, c, b], [b, a, c], [b, c, a], [c, a, b], [c, b, a]],
      AVLTree.run (vs.map Op.insert) =
        some { root := .node b 2 (.node a 1 .nil .nil) (.node c 1 .nil .nil), size := 3 }) ∧
    (AVLTree.run [.insert c, .insert b] = some { root := .node c 2 (.leaf b) .nil, size := 2 } ∧
      avl_insert (.leaf b) a 2 = some (.node b 2 (.leaf a) .nil, 3) ∧
      avl_insert_select (.node c 2 (.node b 2 (.leaf a) .nil) .nil) a = some .left_left) ∧
    (AVLTree.run [.insert a, .insert b] = some { root := .node a 2 .nil (.leaf b), size := 2 } ∧
      avl_insert (.leaf b) c 2 = some (.node b 2 .nil (.leaf c), 3) ∧
      avl_insert_select (.node a 2 .nil (.node b 2 .nil (.leaf c))) c = some .right_right) ∧
    (AVLTree.run [.insert c, .insert a] = some { root := .node c 2 (.leaf a) .nil, size := 2 } ∧
      avl_insert (.leaf a) b 2 = some (.node a 2 .nil (.leaf b), 3) ∧
      avl_insert_select (.node c 2 (.node a 2 .nil (.leaf b)) .nil) b = some .left_right) ∧
    (AVLTree.run [.insert a, .insert c] = some { root := .node a 2 .nil (.leaf c), size := 2 } ∧
      avl_insert (.leaf c) b 2 = some (.node c 2 (.leaf b) .nil, 3) ∧
      avl_insert_select (.node a 2 .nil (.node c 2 (.leaf b) .nil)) b = some .right_left) := by
  have hac : a < c := lt_trans hab hbc
  have n1 : ¬ b < a := not_lt_of_gt hab
  have n2 : ¬ c < b := not_lt_of_gt hbc
  have n3 : ¬ c < a := not_lt_of_gt hac
  refine ⟨?_, ?_, ?_, ?_, ?_⟩
  · intro vs hvs
    simp only [List.mem_cons, List.mem_singleton, List.not_mem_nil, or_false] at hvs
    rcases hvs with rfl | rfl | rfl | rfl | rfl | rfl <;>
      simp [AVLTree.run, AVLTree.applyAll, AVLTree.apply, AVLTree.insert, AVLTree.empty,
        avl_insert, avl_insert_rebalance, avl_rebalance_left_left, avl_rebalance_left_right,
        avl_rebalance_right_right, avl_rebalance_right_left, AVLTreeNode.leaf, avl_height,
        hab, hbc, hac, n1, n2, n3]
  all_goals
    simp [AVLTree.run, AVLTree.applyAll, AVLTree.apply, AVLTree.insert, AVLTree.empty,
      avl_insert, avl_insert_rebalance, avl_insert_select, AVLTreeNode.leaf, avl_height,
      hab, hbc, hac, n1, n2, n3]

/-- Witness of C14: the six insertion orders of 1, 2, 3 (scenarios 1 to 4 of the
specification among them). -/
theorem three_keys_witness :
    ((1 : Int) < 2 ∧ (2 : Int) < 3) ∧
    ∀ vs ∈ [[(1 : Int), 2, 3], [1, 3, 2], [2, 1, 3], [2, 3, 1], [3, 1, 2], [3, 2, 1]],
      AVLTree.run (vs.map Op.insert) =
        some { root := .node 2 2 (.node 1 1 .nil .nil) (.node 3 1 .nil .nil), size := 3 } :=
  ⟨⟨by decide, by decide⟩, (three_keys 1 2 3 (by decide) (by decide)).1⟩

/-- C15 as amended, two-child removal uses the in-order successor: for every
node with two children whose right subtree satisfies the order, height and
balance invariants, `avl_remove_node` returns that same node (same stored
height) with its value overwritten by the smallest value `m` of its former
right subtree, its left subtree unchanged, and a right subtree whose in-order
sequence is the former one without its first element. -/
theorem two_child_removal (v : α) (h : Nat) (l r : AVLTreeNode α)
    (hl : l ≠ .nil) (hr : r ≠ .nil)
    (ho : ordered r) (hh : height_ok r) (hb : balanced r) :
    ∃ m tl r1, inorder r = m :: tl ∧ (∀ y ∈ inorder r, m ≤ y) ∧
      avl_remove_node (.node v h l r) = some (.node m h l r1) ∧ inorder r1 = tl := by
  cases l with
  | nil => exact absurd rfl hl
  | node lv lh ll lr =>
    cases r with
    | nil => exact absurd rfl hr
    | node rv rh rl rr =>
      obtain ⟨tl, htl⟩ := successor_val_head rl rv (inorder rr)
      have hin : inorder (.node rv rh rl rr) = avl_successor_val rv rl :: tl := by
        rw [inorder_node]; exact htl
      obtain ⟨r1, s1, e1, -, -, -⟩ :=
        avl_remove_shape (.node rv rh rl rr) hh hb (avl_successor_val rv rl) 0
      obtain ⟨hi, -⟩ := avl_remove_inorder (.node rv rh rl rr) ho _ _ _ _ e1
      refine ⟨avl_successor_val rv rl, tl, r1, hin, ?_, ?_, ?_⟩
      · intro y hy
        have hp : (avl_successor_val rv rl :: tl).Pairwise (· < ·) := hin ▸ ho
        rw [hin] at hy
        rcases List.mem_cons.1 hy with rfl | hy
        · exact le_refl _
        · exact le_of_lt ((List.pairwise_cons.1 hp).1 y hy)
      · simp only [avl_remove_node, avl_successor, e1]
      · rw [hi, hin, List.erase_cons_head]

/-- Counterexample to C15 as stated: the right subtree 8 (7, 9) is ordered, but
the node 9 stores height 5.  The nested removal of the successor 7 then finds
balance -5 at node 8 and calls the Right-Right rotation, which dereferences
the missing right child of 9: `avl_remove_node` returns no node. -/
theorem two_child_removal_counterexample :
    ordered (AVLTreeNode.node (8 : Int) 2 (.leaf 7) (.node 9 5 .nil .nil)) ∧
      avl_remove_node (AVLTreeNode.node (5 : Int) 3 (.leaf 1)
        (.node 8 2 (.leaf 7) (.node 9 5 .nil .nil))) = none := by
  decide

/-- Witness of C15: the root 5 of the tree of scenario 5 has two children and a
valid right subtree 8 (7, 9); `avl_remove_node` overwrites 5 by 7.  After
inserting 5, 3, 8, 1, 4, 7, 9 and calling `remove(5)` the root holds 7,
`has(5)` is false, `has(7)` is true, 7 occurs once in the traversal
1, 3, 4, 7, 8, 9 and the four invariants hold. -/
theorem two_child_removal_witness :
    ((AVLTreeNode.node (3 : Int) 2 (.leaf 1) (.leaf 4) ≠ .nil ∧
      AVLTreeNode.node (8 : Int) 2 (.leaf 7) (.leaf 9) ≠ .nil ∧
      ordered (AVLTreeNode.node (8 : Int) 2 (.leaf 7) (.leaf 9)) ∧
      height_ok (AVLTreeNode.node (8 : Int) 2 (.leaf 7) (.leaf 9)) ∧
      balanced (AVLTreeNode.node (8 : Int) 2 (.leaf 7) (.leaf 9))) ∧
     ∃ m tl r1, inorder (AVLTreeNode.node (8 : Int) 2 (.leaf 7) (.leaf 9)) = m :: tl ∧
      (∀ y ∈ inorder (AVLTreeNode.node (8 : Int) 2 (.leaf 7) (.leaf 9)), m ≤ y) ∧
      avl_remove_node example_tree.root =
        some (.node m 3 (.node 3 2 (.leaf 1) (.leaf 4)) r1) ∧ inorder r1 = tl) ∧
    ∃ t, AVLTree.run (example_ops ++ [.remove 5]) = some t ∧
      (∃ h l r, t.root = .node 7 h l r) ∧ t.has 5 = false ∧ t.has 7 = true ∧
      ((traverse t.root).map Prod.fst).count 7 = 1 ∧
      (traverse t.root).map Prod.fst = [1, 3, 4, 7, 8, 9] ∧ t.valid :=
  ⟨⟨⟨by decide, by decide, by decide, by decide, by decide⟩,
    two_child_removal 5 3 _ _ (by decide) (by decide) (by decide) (by decide) (by decide)⟩,
   ⟨{ root := .node 7 3 (.node 3 2 (.leaf 1) (.leaf 4)) (.node 8 2 .nil (.leaf 9)),
      size := 6 },
    by decide, ⟨_, _, _, rfl⟩, by decide, by decide, by decide, by decide, by decide⟩⟩

/-- C17, only one rotation per insert: on a tree that satisfies the order, height
and balance invariants an insert succeeds and applies at most one rotation, and
if it applies one the tree keeps its height; the result satisfies the three
invariants.  Whenever the unwind rotates at a node, the rotated subtree has
the stored height the node had before the insert.  The same holds in the
subtree of every node, so that above a rotation no node changes height or
goes out of balance. -/
theorem insert_one_rotation (t : AVLTreeNode α) (val : α) (s : Nat)
    (ho : ordered t) (hh : height_ok t) (hb : balanced t) :
    (∃ t1 s1 k, avl_insert_counted t val s = some (t1, s1, k) ∧
        avl_insert t val s = some (t1, s1) ∧ k ≤ 1 ∧
        (k = 1 → avl_height t1 = avl_height t) ∧
        ordered t1 ∧ height_ok t1 ∧ balanced t1) ∧
    (∀ v h l r, .node v h l r ∈ nodes t →
      (∀ l1 s1 z, val < v → avl_insert l val s = some (l1, s1) →
        (avl_insert_select (.node v h l1 r) val).isSome = true →
        avl_insert_rebalance (.node v h l1 r) val = some z → avl_height z = h) ∧
      (∀ r1 s1 z, val > v → avl_insert r val s = some (r1, s1) →
        (avl_insert_select (.node v h l r1) val).isSome = true →
        avl_insert_rebalance (.node v h l r1) val = some z → avl_height z = h)) ∧
    (∀ n ∈ nodes t, ∃ n1 s1 k, avl_insert_counted n val s = some (n1, s1, k) ∧
        k ≤ 1 ∧ (k = 1 → avl_height n1 = avl_height n) ∧
        height_ok n1 ∧ balanced n1) := by
  have key : ∀ n : AVLTreeNode α, height_ok n → balanced n →
      ∃ n1 s1 k, avl_insert_counted n val s = some (n1, s1, k) ∧
        avl_insert n val s = some (n1, s1) ∧ k ≤ 1 ∧
        (k = 1 → avl_height n1 = avl_height n) ∧ height_ok n1 ∧ balanced n1 := by
    intro n hn bn
    obtain ⟨n1, s1, k, ec, ei, hk, hkh⟩ := avl_insert_counted_spec n val s hn bn
    obtain ⟨n1', s1', e1, hn1, bn1, -⟩ := avl_insert_shape n val s hn bn
    rw [ei] at e1
    cases e1
    exact ⟨n1, s1, k, ec, ei, hk, hkh, hn1, bn1⟩
  refine ⟨?_, ?_, ?_⟩
  · obtain ⟨t1, s1, k, ec, ei, hk, hkh, hn1, bn1⟩ := key t hh hb
    exact ⟨t1, s1, k, ec, ei, hk, hkh, avl_insert_ordered t val s ho t1 s1 ei, hn1, bn1⟩
  · intro v h l r hmem
    have hn := height_ok_of_mem_nodes t hh _ hmem
    have bn := balanced_of_mem_nodes t hb _ hmem
    constructor
    · intro l1 s1 z _ ei hs ez
      obtain ⟨z', ez', -, hz, -⟩ := insert_site_left v h l r val s hn bn l1 s1 ei
      rw [ez] at ez'
      cases ez'
      exact hz hs
    · intro r1 s1 z _ ei hs ez
      obtain ⟨z', ez', -, hz, -⟩ := insert_site_right v h l r val s hn bn r1 s1 ei
      rw [ez] at ez'
      cases ez'
      exact hz hs
  · intro n hmem
    obtain ⟨n1, s1, k, ec, -, hk, hkh, hn1, bn1⟩ :=
      key n (height_ok_of_mem_nodes t hh n hmem) (balanced_of_mem_nodes t hb n hmem)
    exact ⟨n1, s1, k, ec, hk, hkh, hn1, bn1⟩

/-- Witness of C17: inserting 1 into the tree 3 (2, -) applies one Left-Left
rotation at the root and the height stays 2. -/
theorem insert_one_rotation_witness :
    (ordered example_pair ∧ height_ok example_pair ∧ balanced example_pair) ∧
      avl_insert_counted example_pair 1 2 = some (.node 2 2 (.leaf 1) (.leaf 3), 3, 1) ∧
      ∃ t1 s1 k, avl_insert_counted example_pair 1 2 = some (t1, s1, k) ∧
        avl_insert example_pair 1 2 = some (t1, s1) ∧ k ≤ 1 ∧
        (k = 1 → avl_height t1 = avl_height example_pair) ∧
        ordered t1 ∧ height_ok t1 ∧ balanced t1 :=
  ⟨⟨by decide, by decide, by decide⟩, by decide,
    (insert_one_rotation example_pair 1 2 (by decide) (by decide) (by decide)).1⟩

/-- C18 on the failing input: `assert_tree_valid` returns without a failed
assertion on a tree whose in-order traversal 3, 7, 5, 8 is not ascending (7 lies
in the left subtree of 5).  The checker compares a node with its two children
only. -/
theorem assert_tree_valid_misses_order :
    assert_tree_valid unordered_tree = true ∧
      (traverse unordered_tree.root).map Prod.fst = [3, 7, 5, 8] ∧
      ¬ ((traverse unordered_tree.root).map Prod.fst).Pairwise (· < ·) ∧
      ¬ bst unordered_tree.root := by
  decide

/-- C19, rotations are only applied to well-shaped nodes: on a tree that
satisfies the order, height and balance invariants `avl_insert` and
`avl_remove` run to the end for every value, and whenever the unwind of one of
them selects a rotation at a node `z`, the nodes which that rotation
dereferences exist.  The unwind of `avl_insert` runs on a node after the
recursive call on its left or right child; that of `avl_remove` runs there and
on the node returned by `avl_remove_node`. -/
theorem rotations_well_shaped (t : AVLTreeNode α)
    (_ho : ordered t) (hh : height_ok t) (hb : balanced t) :
    (∀ (val : α) (s : Nat),
      (∃ p, avl_insert t val s = some p) ∧ (∃ p, avl_remove t val s = some p)) ∧
    ∀ v h l r, .node v h l r ∈ nodes t → ∀ (val : α) (s : Nat) (rot : Rotation),
      (∀ l1 s1, val < v → avl_insert l val s = some (l1, s1) →
        avl_insert_select (.node v h l1 r) val = some rot →
        rot.nodes_exist (.node v h l1 r) = true) ∧
      (∀ r1 s1, val > v → avl_insert r val s = some (r1, s1) →
        avl_insert_select (.node v h l r1) val = some rot →
        rot.nodes_exist (.node v h l r1) = true) ∧
      (∀ l1 s1, val < v → avl_remove l val s = some (l1, s1) →
        avl_remove_select (.node v h l1 r) = some rot →
        rot.nodes_exist (.node v h l1 r) = true) ∧
      (∀ r1 s1, val > v → avl_remove r val s = some (r1, s1) →
        avl_remove_select (.node v h l r1) = some rot →
        rot.nodes_exist (.node v h l r1) = true) ∧
      (∀ n1, avl_remove_node (.node v h l r) = some n1 →
        avl_remove_select n1 = some rot → rot.nodes_exist n1 = true) := by
  refine ⟨fun val s => ⟨?_, ?_⟩, ?_⟩
  · obtain ⟨t1, s1, e, -⟩ := avl_insert_shape t val s hh hb
    exact ⟨_, e⟩
  · obtain ⟨t1, s1, e, -⟩ := avl_remove_shape t hh hb val s
    exact ⟨_, e⟩
  · intro v h l r hmem val s rot
    have hn := height_ok_of_mem_nodes t hh _ hmem
    have bn := balanced_of_mem_nodes t hb _ hmem
    refine ⟨?_, ?_, ?_, ?_, ?_⟩
    · intro l1 s1 _ ei hs
      obtain ⟨z, ez, -⟩ := insert_site_left v h l r val s hn bn l1 s1 ei
      exact insert_select_nodes_exist _ z val rot ez hs
    · intro r1 s1 _ ei hs
      obtain ⟨z, ez, -⟩ := insert_site_right v h l r val s hn bn r1 s1 ei
      exact insert_select_nodes_exist _ z val rot ez hs
    · intro l1 s1 _ ei hs
      obtain ⟨z, ez⟩ := remove_site_left v h l r val s hn bn l1 s1 ei
      exact remove_select_nodes_exist _ z rot ez hs
    · intro r1 s1 _ ei hs
      obtain ⟨z, ez⟩ := remove_site_right v h l r val s hn bn r1 s1 ei
      exact remove_select_nodes_exist _ z rot ez hs
    · intro n1 e hs
      obtain ⟨z, ez⟩ := remove_node_rebalance _ n1 hn bn e
      exact remove_select_nodes_exist _ z rot ez hs

/-- Witness of C19: on the tree 3 (2, -) every insert and remove runs to the end;
inserting 1 makes the unwind select Left-Left at the root, whose left child 2
and left-left grandchild 1 exist. -/
theorem rotations_well_shaped_witness :
    (ordered example_pair ∧ height_ok example_pair ∧ balanced example_pair) ∧
      avl_insert_select (AVLTreeNode.node (3 : Int) 2 (.node 2 2 (.leaf 1) .nil) .nil) 1 =
        some .left_left ∧
      Rotation.left_left.nodes_exist
        (AVLTreeNode.node (3 : Int) 2 (.node 2 2 (.leaf 1) .nil) .nil) = true ∧
      ∀ (val : Int) (s : Nat),
        (∃ p, avl_insert example_pair val s = some p) ∧
          (∃ p, avl_remove example_pair val s = some p) :=
  ⟨⟨by decide, by decide, by decide⟩, by decide,
    ((rotations_well_shaped example_pair (by decide) (by decide) (by decide)).2
      3 2 (.leaf 2) .nil (by decide) 1 2 .left_left).1
      (.node 2 2 (.leaf 1) .nil) 3 (by decide) (by decide) (by decide),
    (rotations_well_shaped example_pair (by decide) (by decide) (by decide)).1⟩

/-- C20, the value-based rotation choice of insert agrees with the balance-based
choice of remove: on a tree that satisfies the order, height and balance
invariants, at every node where `avl_insert` finds balance > 1 after the
recursive insert, `val < node.left.val` holds exactly when
`balance(node.left) ≥ 0`, and where it finds balance < -1,
`val > node.right.val` holds exactly when `balance(node.right) ≤ 0` (balance
> 1 arises only after an insert into the left child, balance < -1 only after
one into the right child).  Hence `avl_insert` with the rule of `avl_remove`
returns the same result. -/
theorem insert_choice_agrees (t : AVLTreeNode α) (val : α) (s : Nat)
    (_ho : ordered t) (hh : height_ok t) (hb : balanced t) :
    (∀ v h l r, .node v h l r ∈ nodes t →
      (∀ l1 s1, val < v → avl_insert l val s = some (l1, s1) →
        ((avl_height l1 : Int) - (avl_height r : Int) > 1 →
          ∃ lv lh ll lr, l1 = .node lv lh ll lr ∧ (val < lv ↔ avl_balance l1 ≥ 0)) ∧
        ¬ ((avl_height l1 : Int) - (avl_height r : Int) < -1)) ∧
      (∀ r1 s1, val > v → avl_insert r val s = some (r1, s1) →
        ((avl_height l : Int) - (avl_height r1 : Int) < -1 →
          ∃ rv rh rl rr, r1 = .node rv rh rl rr ∧ (val > rv ↔ avl_balance r1 ≤ 0)) ∧
        ¬ ((avl_height l : Int) - (avl_height r1 : Int) > 1))) ∧
    avl_insert_remove_rule t val s = avl_insert t val s := by
  refine ⟨?_, avl_insert_remove_rule_eq t val s hh hb⟩
  intro v h l r hmem
  have hn := height_ok_of_mem_nodes t hh _ hmem
  have bn := balanced_of_mem_nodes t hb _ hmem
  constructor
  · intro l1 s1 _ ei
    obtain ⟨z, -, -, -, hi, hneg⟩ := insert_site_left v h l r val s hn bn l1 s1 ei
    exact ⟨hi, hneg⟩
  · intro r1 s1 _ ei
    obtain ⟨z, -, -, -, hi, hneg⟩ := insert_site_right v h l r val s hn bn r1 s1 ei
    exact ⟨hi, hneg⟩

/-- Witness of C20: inserting 1 into the tree 3 (2, -) finds balance 2 at the
root; 1 < 2 and the balance of the left child is 1, and the insert with the
rule of `avl_remove` returns the same tree. -/
theorem insert_choice_agrees_witness :
    (ordered example_pair ∧ height_ok example_pair ∧ balanced example_pair) ∧
      ((1 : Int) < 2 ↔ avl_balance (AVLTreeNode.node (2 : Int) 2 (.leaf 1) .nil) ≥ 0) ∧
      avl_insert_remove_rule example_pair 1 2 = avl_insert example_pair 1 2 ∧
      avl_insert example_pair 1 2 = some (.node 2 2 (.leaf 1) (.leaf 3), 3) :=
  ⟨⟨by decide, by decide, by decide⟩, by decide,
    (insert_choice_agrees example_pair 1 2 (by decide) (by decide) (by decide)).2,
    by decide⟩

/-- C21, insert affects no other value: on a tree reached from the empty tree,
`insert(x)` succeeds and `has(y)` is unchanged for every `y` different from
`x`; when `x` was absent, the in-order sequence after the insert is the
previous one with `x` put in at its sorted position (after all smaller values
and before all greater ones, which is the ordered insertion of `x`), and the
size grows by exactly 1. -/
theorem insert_frame (ops : List (Op α)) (t : AVLTree α) (x : α)
    (hrun : AVLTree.run ops = some t) :
    ∃ t1, t.insert x = some t1 ∧
      (∀ y, y ≠ x → t1.has y = t.has y) ∧
      (t.has x = false →
        (∃ ys zs, (traverse t.root).map Prod.fst = ys ++ zs ∧
          (traverse t1.root).map Prod.fst = ys ++ x :: zs ∧
          (∀ y ∈ ys, y < x) ∧ (∀ z ∈ zs, x < z)) ∧
        (traverse t1.root).map Prod.fst =
          List.orderedInsert (· ≤ ·) x ((traverse t.root).map Prod.fst) ∧
        t1.size = t.size + 1) := by
  obtain ⟨t0, e0, hv⟩ := AVLTree.run_valid ops
  rw [hrun] at e0
  cases e0
  obtain ⟨t1, e1, hv1, hm⟩ := AVLTree.insert_valid t hv x
  refine ⟨t1, e1, ?_, ?_⟩
  · intro y hy
    unfold AVLTree.has
    rw [Bool.eq_iff_iff, avl_has_iff t1.root hv1.1, avl_has_iff t.root hv.1, hm y]
    exact ⟨fun h => h.resolve_left hy, Or.inr⟩
  · intro hx
    have hnot : x ∉ inorder t.root := by
      intro hmem
      have := (avl_has_iff t.root hv.1 x).2 hmem
      unfold AVLTree.has at hx
      rw [hx] at this
      cases this
    rw [traverse_values, traverse_values]
    rcases avl_insert_inorder t.root x hv.1 t.size t1.root t1.size
        (AVLTree.insert_eq t t1 x e1) with ⟨hmem, -, -⟩ | ⟨ys, zs, h1, h2, h3, h4, hs⟩
    · exact absurd hmem hnot
    · refine ⟨⟨ys, zs, h1, h2, h3, h4⟩, ?_, hs⟩
      rw [h1, h2, orderedInsert_mid x ys zs h3 h4]

/-- Witness of C21: inserting the absent value 6 into the tree of scenario 5
puts 6 between 5 and 7 in the traversal and the size goes from 7 to 8. -/
theorem insert_frame_witness :
    AVLTree.run example_ops = some example_tree ∧
      example_tree.has 6 = false ∧
      (∃ t1, example_tree.insert 6 = some t1 ∧
        (traverse t1.root).map Prod.fst = [1, 3, 4, 5, 6, 7, 8, 9] ∧ t1.size = 8) ∧
      ∃ t1, example_tree.insert 6 = some t1 ∧
        (∀ y, y ≠ 6 → t1.has y = example_tree.has y) ∧
        (example_tree.has 6 = false →
          (∃ ys zs, (traverse example_tree.root).map Prod.fst = ys ++ zs ∧
            (traverse t1.root).map Prod.fst = ys ++ 6 :: zs ∧
            (∀ y ∈ ys, y < 6) ∧ (∀ z ∈ zs, 6 < z)) ∧
          (traverse t1.root).map Prod.fst =
            List.orderedInsert (· ≤ ·) 6 ((traverse example_tree.root).map Prod.fst) ∧
          t1.size = example_tree.size + 1) :=
  ⟨by decide, by decide,
    ⟨{ root := .node 5 4 (.node 3 2 (.leaf 1) (.leaf 4))
        (.node 8 3 (.node 7 2 (.leaf 6) .nil) (.leaf 9)), size := 8 },
      by decide, by decide, by decide⟩,
    insert_frame example_ops example_tree 6 (by decide)⟩

end Claims

section RotationClaims

variable {α : Type}

/-- C16, rotations preserve the in-order sequence: each of the four transforms,
applied to a subtree root `z` that has the child `y` and the grandchild `x` it
needs, returns a subtree with the same in-order sequence of values, in which
the four subtrees `T1` to `T4` are reattached unchanged in the places of the
diagrams of the source. -/
theorem rotations_preserve_inorder (zv yv xv : α) (zh yh xh : Nat)
    (T1 T2 T3 T4 : AVLTreeNode α) :
    (∃ a b c,
      avl_rebalance_left_left (.node zv zh (.node yv yh (.node xv xh T1 T2) T3) T4) =
        some (.node yv a (.node xv b T1 T2) (.node zv c T3 T4)) ∧
      inorder (.node yv a (.node xv b T1 T2) (.node zv c T3 T4)) =
        inorder (.node zv zh (.node yv yh (.node xv xh T1 T2) T3) T4)) ∧
    (∃ a b c,
      avl_rebalance_left_right (.node zv zh (.node yv yh T1 (.node xv xh T2 T3)) T4) =
        some (.node xv a (.node yv b T1 T2) (.node zv c T3 T4)) ∧
      inorder (.node xv a (.node yv b T1 T2) (.node zv c T3 T4)) =
        inorder (.node zv zh (.node yv yh T1 (.node xv xh T2 T3)) T4)) ∧
    (∃ a b c,
      avl_rebalance_right_right (.node zv zh T1 (.node yv yh T2 (.node xv xh T3 T4))) =
        some (.node yv a (.node zv b T1 T2) (.node xv c T3 T4)) ∧
      inorder (.node yv a (.node zv b T1 T2) (.node xv c T3 T4)) =
        inorder (.node zv zh T1 (.node yv yh T2 (.node xv xh T3 T4)))) ∧
    (∃ a b c,
      avl_rebalance_right_left (.node zv zh T1 (.node yv yh (.node xv xh T2 T3) T4)) =
        some (.node xv a (.node zv b T1 T2) (.node yv c T3 T4)) ∧
      inorder (.node xv a (.node zv b T1 T2) (.node yv c T3 T4)) =
        inorder (.node zv zh T1 (.node yv yh (.node xv xh T2 T3) T4))) := by
  refine ⟨⟨_, _, _, rfl, ?_⟩, ⟨_, _, _, rfl, ?_⟩, ⟨_, _, _, rfl, ?_⟩, ⟨_, _, _, rfl, ?_⟩⟩ <;>
    simp only [inorder_node, List.append_assoc, List.cons_append]

end RotationClaims

end AVL
